import Mathlib

/-!
Verification of the threshold Schnorr signature implementation
(`src/shamir.rs`, `src/keygen.rs`, `src/nizk.rs`, `src/protocol.rs`,
`src/commitment.rs`, `src/timed.rs`, `src/tracing.rs`).

Shallow embedding conventions:

* Scalars (`curve25519_dalek::scalar::Scalar`, the field of integers modulo the
  prime group order) are modeled by an abstract field `F`; the Ristretto group
  (prime order, cyclic) is modeled by an abstract additive commutative group
  `G` that is a module over `F`.  `Scalar::invert` (which computes
  `x^(order-2)`, i.e. the field inverse, with `0 ↦ 0`) is modeled by the
  field inverse `x⁻¹` (which also maps `0 ↦ 0`).
* The canonical 32-byte compressed point encoding is modeled by `Option G`:
  `some p` stands for the (unique, canonical) valid encoding of `p`; `none`
  stands for a 32-byte string that fails to decompress.  `enc_point` is
  `some`, `dec_point` (`CompressedRistretto::decompress`) is the identity on
  `Option G`.
* Scalar byte encodings are canonical and total in both directions
  (`Scalar::to_bytes` / `from_bytes_mod_order` round-trip), so scalar wire
  fields are modeled by `F` directly.
* Opaque 32-byte strings (hash outputs `mu`, random strings `rho`) are modeled
  by natural numbers (`B32`); only equality of such strings is ever used.
* The SHA-512 based random oracles of `src/hash.rs` are modeled by an abstract
  `Oracles` bundle; randomness sampled inside a function is passed to its model
  as an extra argument.
-/

namespace TSig

/-- Opaque 32-byte strings (hash outputs, random `rho` values): only their
equality is used by the protocol, so they are modeled by naturals. -/
abbrev B32 := ℕ

/-- The domain-separated hash oracles of `src/hash.rs`.  Each SHA-512 based
oracle of the source is one abstract function; distinct oracles are distinct
fields, reflecting the domain separation. -/
structure Oracles (F G : Type) where
  f0 : B32 → G
  f1 : B32 → G
  g0 : List ℕ → List (ℕ × B32) → G
  g1 : List ℕ → List (ℕ × B32) → G
  hcom : ℕ → B32 → G → B32
  hsig : G → G → List ℕ → F
  hfs : G → G → G → G → G → G → G → G → B32 → F
  deriveGen : List ℕ → G

/-- `types.rs` `Params`: `n`, `t` and the three generators `g, h, v`. -/
structure Params (G : Type) where
  n : ℕ
  t : ℕ
  g : G
  h : G
  v : G

/-- `types.rs` `SecretKeyShare`: the triple `(s_i, r_i, u_i)`. -/
structure SecretKeyShare (F : Type) where
  s : F
  r : F
  u : F

/-- `types.rs` `PublicKeyShare`. -/
structure PublicKeyShare (G : Type) where
  pk_i : G

/-- `types.rs` `CommitmentMessage`: `(i, mu_i)`. -/
structure CommitmentMessage where
  i : ℕ
  mu_i : B32

/-- `nizk.rs` `Proof`: three announcement points (compressed, hence `Option G`)
and four response scalars. -/
structure Proof (F G : Type) where
  xa : Option G
  xb : Option G
  xpk : Option G
  za : F
  zs : F
  zr : F
  zu : F

/-- `types.rs` `OpeningMessage`. -/
structure OpeningMessage (F G : Type) where
  i : ℕ
  a_i : F
  a_point : Option G
  rho_i : B32
  b_point : Option G
  proof : Proof F G

/-- `types.rs` `PartialSignature`: `(i, z_i)` with `z_i` in canonical scalar
bytes, modeled as the scalar itself. -/
structure PartialSignature (F : Type) where
  i : ℕ
  z_i : F

/-- `types.rs` `Signature`. -/
structure Signature (F G : Type) where
  A_hat : G
  z : F

/-- `types.rs` `SignerState`. -/
structure SignerState (F G : Type) where
  i : ℕ
  a_i : F
  rho_i : B32
  b_i : G
  a_i_point : G
  mu_vec : List (ℕ × B32)
  g0 : G
  g1 : G

section ProtocolModel

variable {F : Type} [Field F] {G : Type} [AddCommGroup G] [Module F G]

/-- `hash.rs` `enc_point`: canonical compressed encoding; every point has the
unique valid encoding `some p`. -/
def enc_point (p : G) : Option G := some p

/-- `protocol.rs` `dec_point` (`CompressedRistretto::decompress`): valid
encodings decode to their point, invalid byte strings (`none`) fail. -/
def dec_point (b : Option G) : Option G := b

/-- `shamir.rs` `Poly::eval`: running `(acc, pow)` fold computing
`Σ c_k x^k`. -/
def Poly.eval (coeffs : List F) (x : F) : F :=
  (coeffs.foldl (fun (ap : F × F) c => (ap.1 + c * ap.2, ap.2 * x)) (0, 1)).1

/-- `shamir.rs` `sample_poly_with_constant`: fixed constant term, the `t`
random tail coefficients are passed in. -/
def sample_poly_with_constant (c0 : F) (tail : List F) : List F :=
  c0 :: tail

/-- `shamir.rs` `lagrange_coeff`: running `(num, den)` products over `ss`,
skipping `k == i`, returning `num * den.invert()`. -/
def lagrange_coeff (F : Type) [Field F] (i : ℕ) (ss : List ℕ) : F :=
  let nd := ss.foldl
    (fun (nd : F × F) k =>
      if k = i then nd else (nd.1 * (k : F), nd.2 * ((k : F) - (i : F))))
    (1, 1)
  nd.1 * nd.2⁻¹

/-- `keygen.rs` `setup`: `g` is the canonical basepoint `bp`; `h` and `v` are
derived by hash-to-point from the tags `"h"` and `"v"`. -/
def setup (Ω : Oracles F G) (bp : G) (n t : ℕ) : Params G :=
  { n := n, t := t, g := bp, h := Ω.deriveGen [104], v := Ω.deriveGen [118] }

/-- `keygen.rs` `kgen`: polynomials `s` (random constant `s0`), `r`, `u`
(zero constants); share `i ∈ {1..n}` is the evaluation triple, with
`pk_i = g*s_i + h*r_i + v*u_i` and joint key `pk = g*s0`. -/
def kgen (par : Params G) (s0 : F) (sTail rTail uTail : List F) :
    G × List (PublicKeyShare G) × List (SecretKeyShare F) :=
  let s_poly := sample_poly_with_constant s0 sTail
  let r_poly := sample_poly_with_constant 0 rTail
  let u_poly := sample_poly_with_constant 0 uTail
  let pks := (List.range par.n).map fun k =>
    PublicKeyShare.mk
      (Poly.eval s_poly ((k + 1 : ℕ) : F) • par.g +
        Poly.eval r_poly ((k + 1 : ℕ) : F) • par.h +
        Poly.eval u_poly ((k + 1 : ℕ) : F) • par.v)
  let sks := (List.range par.n).map fun k =>
    SecretKeyShare.mk (Poly.eval s_poly ((k + 1 : ℕ) : F))
      (Poly.eval r_poly ((k + 1 : ℕ) : F)) (Poly.eval u_poly ((k + 1 : ℕ) : F))
  (s0 • par.g, pks, sks)

/-- `nizk.rs` `sig_prove`: announcements from the hat scalars, Fiat-Shamir
challenge, responses. -/
def sig_prove (Ω : Oracles F G) (par : Params G) (pk_i a_i_point b_i g0 g1 : G)
    (rho : B32) (a : F) (sk : SecretKeyShare F)
    (a_hat s_hat r_hat u_hat : F) : Proof F G :=
  let h0 := Ω.f0 rho
  let h1 := Ω.f1 rho
  let xa := a_hat • par.g + r_hat • g0 + u_hat • g1
  let xb := a_hat • par.g + r_hat • h0 + u_hat • h1
  let xpk := s_hat • par.g + r_hat • par.h + u_hat • par.v
  let e := Ω.hfs xa xb xpk a_i_point b_i pk_i g0 g1 rho
  { xa := enc_point xa, xb := enc_point xb, xpk := enc_point xpk,
    za := a_hat + a * e, zs := s_hat + sk.s * e,
    zr := r_hat + sk.r * e, zu := u_hat + sk.u * e }

variable [DecidableEq G]

/-- `nizk.rs` `sig_verify`: decode the three announcements (failure rejects),
recompute the challenge, check the three verification equations. -/
def sig_verify (Ω : Oracles F G) (par : Params G) (pk_i a_i_point b_i g0 g1 : G)
    (rho : B32) (proof : Proof F G) : Bool :=
  match dec_point proof.xa, dec_point proof.xb, dec_point proof.xpk with
  | some xa, some xb, some xpk =>
    let h0 := Ω.f0 rho
    let h1 := Ω.f1 rho
    let e := Ω.hfs xa xb xpk a_i_point b_i pk_i g0 g1 rho
    decide (proof.za • par.g + proof.zr • g0 + proof.zu • g1 = xa + e • a_i_point) &&
    decide (proof.za • par.g + proof.zr • h0 + proof.zu • h1 = xb + e • b_i) &&
    decide (proof.zs • par.g + proof.zr • par.h + proof.zu • par.v = xpk + e • pk_i)
  | _, _, _ => false

end ProtocolModel

section Rounds

variable {F : Type} [Field F] {G : Type} [AddCommGroup G] [Module F G]

/-- `protocol.rs` `normalize_mu_vec`: sort the `(id, mu)` vector by id. -/
def normalize_mu_vec (mu : List (ℕ × B32)) : List (ℕ × B32) :=
  mu.mergeSort fun a b => a.1 ≤ b.1

/-- `protocol.rs` `sig1`: sample `a_i`, `rho_i` (passed in), compute
`B_i = g*a_i + F0(rho_i)*r_i + F1(rho_i)*u_i` and `mu_i = Hcom(i, rho_i, B_i)`. -/
def sig1 (Ω : Oracles F G) (par : Params G) (i : ℕ) (sk_i : SecretKeyShare F)
    (a_i : F) (rho_i : B32) : CommitmentMessage × SignerState F G :=
  let h0 := Ω.f0 rho_i
  let h1 := Ω.f1 rho_i
  let b_i := a_i • par.g + sk_i.r • h0 + sk_i.u • h1
  let mu_i := Ω.hcom i rho_i b_i
  ({ i := i, mu_i := mu_i },
   { i := i, a_i := a_i, rho_i := rho_i, b_i := b_i,
     a_i_point := 0, mu_vec := [], g0 := 0, g1 := 0 })

/-- `protocol.rs` `sig2`: normalize the commitment vector, compute `G0`, `G1`,
`A_i = g*a_i + G0*r_i + G1*u_i`, the NIZK proof, and the opening message. -/
def sig2 (Ω : Oracles F G) (par : Params G) (message : List ℕ) (i : ℕ)
    (mu_vec : List (ℕ × B32)) (pk_i : PublicKeyShare G) (sk_i : SecretKeyShare F)
    (st : SignerState F G) (a_hat s_hat r_hat u_hat : F) :
    OpeningMessage F G × SignerState F G :=
  let mu_vec := normalize_mu_vec mu_vec
  let g0p := Ω.g0 message mu_vec
  let g1p := Ω.g1 message mu_vec
  let a_i_point := st.a_i • par.g + sk_i.r • g0p + sk_i.u • g1p
  let proof := sig_prove Ω par pk_i.pk_i a_i_point st.b_i g0p g1p st.rho_i
    st.a_i sk_i a_hat s_hat r_hat u_hat
  ({ i := i, a_i := st.a_i, a_point := enc_point a_i_point, rho_i := st.rho_i,
     b_point := enc_point st.b_i, proof := proof },
   { i := i, a_i := st.a_i, rho_i := st.rho_i, b_i := st.b_i,
     a_i_point := a_i_point, mu_vec := mu_vec, g0 := g0p, g1 := g1p })

variable [DecidableEq G]

/-- `protocol.rs` `sig3_with_pk` per-opening check: decode `B_j`, compare
`mu_j` against `Hcom(j, rho_j, B_j)` (absence of `j` in the commitment vector
fails), decode `A_j`, look up `pk_j`, verify the NIZK.  Every failure makes
`sig3_with_pk` return `none`, so the early-return loop is a Bool. -/
def checkOpening (Ω : Oracles F G) (par : Params G) (g0p g1p : G)
    (mu_vec : List (ℕ × B32)) (pk_shares : List (ℕ × G))
    (om : OpeningMessage F G) : Bool :=
  match dec_point om.b_point with
  | none => false
  | some bj =>
    match (mu_vec.find? fun x => x.1 == om.i).map (fun x => x.2) with
    | none => false
    | some muj =>
      if muj = Ω.hcom om.i om.rho_i bj then
        match dec_point om.a_point with
        | none => false
        | some aj =>
          match (pk_shares.find? fun x => x.1 == om.i).map (fun x => x.2) with
          | none => false
          | some pkj => sig_verify Ω par pkj aj bj g0p g1p om.rho_i om.proof
      else false

/-- `protocol.rs`: the `A_hat` accumulation step
`a_hat += dec_point(om.a_point)? * lagrange_coeff(om.i, ss)`; a decoding
failure propagates as `none` (the `?` early return). -/
def addAHat (ss : List ℕ) (acc : Option G) (om : OpeningMessage F G) : Option G :=
  acc.bind fun s => (dec_point om.a_point).map fun aj =>
    s + lagrange_coeff F om.i ss • aj

/-- `protocol.rs` `sig3_with_pk`. -/
def sig3_with_pk (Ω : Oracles F G) (par : Params G) (message : List ℕ)
    (ss : List ℕ) (i : ℕ) (pk_joint : G) (pk_shares : List (ℕ × G))
    (sk_i : SecretKeyShare F) (st : SignerState F G)
    (commitments : List (ℕ × B32)) (openings : List (OpeningMessage F G)) :
    Option (PartialSignature F) :=
  let mu_vec := normalize_mu_vec commitments
  let g0p := Ω.g0 message mu_vec
  let g1p := Ω.g1 message mu_vec
  if openings.all (checkOpening Ω par g0p g1p mu_vec pk_shares) then
    (openings.foldl (addAHat ss) (some 0)).map fun a_hat =>
      let c := Ω.hsig a_hat pk_joint message
      let li := lagrange_coeff F i ss
      { i := i, z_i := li * (st.a_i + c * sk_i.s) }
  else none

/-- `protocol.rs` `combine`: recompute `A_hat` from the openings, sum the
partial `z_i`. -/
def combine (ss : List ℕ) (openings : List (OpeningMessage F G))
    (sigshares : List (PartialSignature F)) : Option (Signature F G) :=
  (openings.foldl (addAHat ss) (some 0)).map fun a_hat =>
    { A_hat := a_hat, z := sigshares.foldl (fun z ps => z + ps.z_i) 0 }

/-- `protocol.rs` `verify`: `c = Hsig(A_hat, pk, m)`;
accept iff `g*z = A_hat + pk*c`. -/
def verify (Ω : Oracles F G) (par : Params G) (pk_joint : G) (message : List ℕ)
    (sig : Signature F G) : Bool :=
  let c := Ω.hsig sig.A_hat pk_joint message
  decide (sig.z • par.g = sig.A_hat + c • pk_joint)

end Rounds

section Commitment

variable {F : Type} [Field F] {G : Type} [AddCommGroup G] [Module F G]

/-- `commitment.rs` `CommitmentMsg`: `(i, C_i)` with `C_i` in compressed bytes. -/
structure CommitmentMsg (G : Type) where
  i : ℕ
  c_i : Option G

/-- `commitment.rs` `CommitmentOpening`: `(i, r_i)`. -/
structure CommitmentOpening (F : Type) where
  i : ℕ
  r_i : F

/-- `commitment.rs` `commit_z`: `C_i = g*z_i + h*r_i` with fresh random `r_i`
(passed in); returns the public message and the local opening. -/
def commit_z (i : ℕ) (g h : G) (z_i : F) (r_i : F) :
    CommitmentMsg G × CommitmentOpening F :=
  ({ i := i, c_i := enc_point (z_i • g + r_i • h) }, { i := i, r_i := r_i })

/-- `commitment.rs` `aggregate_commitments` loop body: decompress one `C_i`
and add it; `.expect("bad commitment point")` aborts the process on an invalid
point, modeled as `none`. -/
def decAddCom (acc : Option G) (c : CommitmentMsg G) : Option G :=
  acc.bind fun s => (dec_point c.c_i).map fun p => s + p

/-- `commitment.rs` `aggregate_commitments`: sum of the decoded points,
re-compressed.  The outer `Option` is the process abort (`expect` panic) on an
invalid commitment point; the Rust function itself returns only the bytes. -/
def aggregate_commitments (coms : List (CommitmentMsg G)) : Option (Option G) :=
  (coms.foldl decAddCom (some 0)).map enc_point

/-- `commitment.rs` `aggregate_openings`: scalar sum of the openings. -/
def aggregate_openings (ops : List (CommitmentOpening F)) : F :=
  ops.foldl (fun acc o => acc + o.r_i) 0

variable [DecidableEq G]

/-- `commitment.rs` `verify_aggregate`: check `C == g*z + h*r`.  The outer
`Option` is the process abort (`expect` panic) when the aggregate commitment
bytes fail to decompress. -/
def verify_aggregate (g h : G) (c_agg : Option G) (z : F) (r_agg : F) :
    Option Bool :=
  (dec_point c_agg).map fun c => decide (c = z • g + r_agg • h)

end Commitment

section HelperDefs

variable {F : Type} [Field F]

/-- Horner form of polynomial evaluation; proved equal to the source's
`Poly::eval` fold. -/
def hornerEval (coeffs : List F) (x : F) : F :=
  coeffs.foldr (fun c acc => c + x * acc) 0

/-- The Mathlib polynomial with the given coefficient list. -/
noncomputable def toPoly (coeffs : List F) : Polynomial F :=
  coeffs.foldr (fun c p => Polynomial.C c + Polynomial.X * p) 0

end HelperDefs

section WitnessInstances

instance fact_prime_5 : Fact (Nat.Prime 5) := ⟨by norm_num⟩

/-- Concrete oracle instantiation over `ZMod 5` (hash oracles are arbitrary
functions; constants are one valid instantiation) used to evaluate the model
on closed inputs. -/
def oracles5 : Oracles (ZMod 5) (ZMod 5) where
  f0 := fun _ => 0
  f1 := fun _ => 0
  g0 := fun _ _ => 0
  g1 := fun _ _ => 0
  hcom := fun _ _ _ => 0
  hsig := fun _ _ _ => 0
  hfs := fun _ _ _ _ _ _ _ _ _ => 0
  deriveGen := fun _ => 0

/-- Concrete parameters over `ZMod 5` for closed evaluations. -/
def par5 : Params (ZMod 5) := { n := 2, t := 1, g := 1, h := 1, v := 1 }

end WitnessInstances

section HonestRun

/-- The inputs of one honest signing run: parameters, message, signing set,
per-signer key material and per-signer randomness (nonce `a_i`, string
`rho_i`, NIZK hat scalars). -/
structure Run (F G : Type) where
  Ω : Oracles F G
  par : Params G
  m : List ℕ
  SS : List ℕ
  sk : ℕ → SecretKeyShare F
  pkS : ℕ → PublicKeyShare G
  aR : ℕ → F
  rhoR : ℕ → B32
  hat1 : ℕ → F
  hat2 : ℕ → F
  hat3 : ℕ → F
  hat4 : ℕ → F

variable {F : Type} [Field F] {G : Type} [AddCommGroup G] [Module F G]

/-- Signer `j`'s Round 1 (`sig1`) output in the run. -/
def Run.stepOne (R : Run F G) (j : ℕ) : CommitmentMessage × SignerState F G :=
  sig1 R.Ω R.par j (R.sk j) (R.aR j) (R.rhoR j)

/-- The collected Round 1 commitment vector `(i, mu_i)` over `SS`. -/
def Run.commitments (R : Run F G) : List (ℕ × B32) :=
  R.SS.map fun j => ((R.stepOne j).1.i, (R.stepOne j).1.mu_i)

/-- Signer `j`'s Round 2 (`sig2`) output over the collected commitments. -/
def Run.stepTwo (R : Run F G) (j : ℕ) : OpeningMessage F G × SignerState F G :=
  sig2 R.Ω R.par R.m j R.commitments (R.pkS j) (R.sk j) ((R.stepOne j).2)
    (R.hat1 j) (R.hat2 j) (R.hat3 j) (R.hat4 j)

/-- The collected Round 2 openings over `SS`. -/
def Run.openings (R : Run F G) : List (OpeningMessage F G) :=
  R.SS.map fun j => (R.stepTwo j).1

/-- The point `B_j` computed by `sig1`. -/
def Run.ptB (R : Run F G) (j : ℕ) : G :=
  R.aR j • R.par.g + (R.sk j).r • R.Ω.f0 (R.rhoR j) + (R.sk j).u • R.Ω.f1 (R.rhoR j)

/-- The commitment `mu_j` computed by `sig1`. -/
def Run.mu (R : Run F G) (j : ℕ) : B32 :=
  R.Ω.hcom j (R.rhoR j) (R.ptB j)

/-- The challenge generator `G0(m, sorted mu-vec)`. -/
def Run.gen0 (R : Run F G) : G :=
  R.Ω.g0 R.m (normalize_mu_vec R.commitments)

/-- The challenge generator `G1(m, sorted mu-vec)`. -/
def Run.gen1 (R : Run F G) : G :=
  R.Ω.g1 R.m (normalize_mu_vec R.commitments)

/-- The point `A_j` computed by `sig2`. -/
def Run.ptA (R : Run F G) (j : ℕ) : G :=
  R.aR j • R.par.g + (R.sk j).r • R.gen0 + (R.sk j).u • R.gen1

/-- The aggregated nonce point `A_hat = Σ_{j ∈ SS} L_{j,SS} * A_j`. -/
def Run.Ahat (R : Run F G) : G :=
  (R.SS.map fun j => lagrange_coeff F j R.SS • R.ptA j).sum

end HonestRun

section ConcreteRuns

/-- Concrete key material over `ZMod 5`: `n = 2`, `t = 1`, zero polynomial
tails. -/
def kg5 : ZMod 5 × List (PublicKeyShare (ZMod 5)) × List (SecretKeyShare (ZMod 5)) :=
  kgen (setup oracles5 1 2 1) 0 [0] [0] [0]

/-- The public-key map `{(i, pk_i)}` for the concrete instance, as built by
the caller in `main.rs`. -/
def pkMap5 : List (ℕ × ZMod 5) :=
  (List.range 2).map fun k => (k + 1, (kg5.2.1.getD k ⟨0⟩).pk_i)

/-- A full honest run of the concrete instance with `SS = [1, 2]` and zero
randomness. -/
def run5 : Run (ZMod 5) (ZMod 5) :=
  Run.mk oracles5 (setup oracles5 1 2 1) [] [1, 2]
    (fun j => kg5.2.2.getD (j - 1) ⟨0, 0, 0⟩)
    (fun j => kg5.2.1.getD (j - 1) ⟨0⟩)
    (fun _ => 0) (fun _ => 0) (fun _ => 0) (fun _ => 0) (fun _ => 0) (fun _ => 0)

/-- An honest run of the concrete instance with the undersized signing set
`SS = [1]` (size 1 < t + 1 = 2). -/
def run5single : Run (ZMod 5) (ZMod 5) :=
  Run.mk oracles5 (setup oracles5 1 2 1) [] [1]
    (fun j => kg5.2.2.getD (j - 1) ⟨0, 0, 0⟩)
    (fun j => kg5.2.1.getD (j - 1) ⟨0⟩)
    (fun _ => 0) (fun _ => 0) (fun _ => 0) (fun _ => 0) (fun _ => 0) (fun _ => 0)

end ConcreteRuns

section TimedModel

/-- `timed.rs` `TimedParams` (`BigUint` values as naturals). -/
structure TimedParams where
  n : ℕ
  g : ℕ
  h : ℕ
  t : ℕ

/-- `timed.rs` `TimedCiphertext` (big-endian byte vectors). -/
structure TimedCiphertext where
  u : List ℕ
  v : List ℕ
  aad : List ℕ

/-- `timed.rs` `pow_2t_mod`: `t` sequential squarings mod `n`. -/
def pow_2t_mod : ℕ → ℕ → ℕ → ℕ
  | x, 0, _ => x
  | x, t + 1, n => pow_2t_mod (x * x % n) t n

/-- `num_bigint` `BigUint::modpow` (semantic model: `a^e mod m`). -/
def modpow (a e m : ℕ) : ℕ := a ^ e % m

/-- `timed.rs` `egcd`: extended Euclid.  The source takes `BigInt`s, but its
only caller `modinv` passes the values of two `BigUint`s, and on nonnegative
arguments `BigInt`'s truncating `%` and `/` agree with natural division, so
the nonnegative arguments are naturals here; the Bezout outputs are integers
as in the source. -/
def egcd (a b : ℕ) : ℤ × ℤ × ℤ :=
  if h : b = 0 then ((a : ℤ), 1, 0)
  else
    let r := egcd b (a % b)
    (r.1, r.2.2, r.2.1 - ((a / b : ℕ) : ℤ) * r.2.2)
termination_by b
decreasing_by exact Nat.mod_lt a (Nat.pos_of_ne_zero h)

/-- `timed.rs` `modinv`: fails when the gcd is not 1, otherwise reduces the
Bezout coefficient into `[0, m)` (`BigInt` `%` truncates, hence the
negativity fixup) and converts back to a natural. -/
def modinv (a m : ℕ) : Option ℕ :=
  let r := egcd a m
  if r.1 ≠ 1 then none
  else
    let x := r.2.1.tmod (m : ℤ)
    let x := if x < 0 then x + (m : ℤ) else x
    some x.toNat

/-- `timed.rs` `derive_h`: `h = g^(2^T) mod N`. -/
def derive_h (n g : ℕ) (t : ℕ) : ℕ := pow_2t_mod (g % n) t n

/-- `timed.rs` `paillier_L`: `(x - 1) / n`. -/
def paillier_L (x n : ℕ) : ℕ := (x - 1) / n

/-- `num_bigint` `BigUint::from_bytes_be`. -/
def from_bytes_be (bs : List ℕ) : ℕ := bs.foldl (fun acc b => acc * 256 + b) 0

/-- Minimal big-endian base-256 digits of a natural (empty for zero). -/
def natBytesBE (n : ℕ) : List ℕ :=
  if h : n = 0 then []
  else natBytesBE (n / 256) ++ [n % 256]
termination_by n
decreasing_by exact Nat.div_lt_self (Nat.pos_of_ne_zero h) (by norm_num)

/-- `num_bigint` `BigUint::to_bytes_be` (zero encodes as `[0]`). -/
def to_bytes_be (n : ℕ) : List ℕ := if n = 0 then [0] else natBytesBE n

/-- `timed.rs` `timed_encrypt` (the sampled `r` is an argument; the
`assert!`-abort on `s >= N` is modeled as `none`). -/
def timed_encrypt (pp : TimedParams) (plaintext : List ℕ) (aad : List ℕ)
    (r : ℕ) : Option TimedCiphertext :=
  let s := from_bytes_be plaintext
  if s < pp.n then
    let n2 := pp.n * pp.n
    let u := modpow pp.g r pp.n
    let one_plus_n := pp.n + 1
    let rN := r * pp.n
    let term1 := modpow (pp.h % n2) rN n2
    let term2 := modpow one_plus_n s n2
    let v := term1 * term2 % n2
    some ⟨to_bytes_be u, to_bytes_be v, aad⟩
  else none

/-- `timed.rs` `timed_decrypt`. -/
def timed_decrypt (pp : TimedParams) (ct : TimedCiphertext)
    (aad_expected : List ℕ) : Option (List ℕ) :=
  if ct.aad ≠ aad_expected then none
  else
    let n := pp.n
    let n2 := n * n
    let u := from_bytes_be ct.u
    let v := from_bytes_be ct.v % n2
    let w := pow_2t_mod (u % n) pp.t n
    let wN := modpow (w % n2) pp.n n2
    match modinv wN n2 with
    | none => none
    | some inv_wN =>
      let x := v * inv_wN % n2
      let s := paillier_L x n % n
      let out := to_bytes_be s
      if 32 < out.length then none
      else if out.length < 32 then some (List.replicate (32 - out.length) 0 ++ out)
      else some out

end TimedModel

section Sha256Model

/-- `2^32`, the 32-bit word modulus of SHA-256. -/
def w32 : ℕ := 4294967296

/-- 32-bit rotate right of a word `x < 2^32`. -/
def rotr (n x : ℕ) : ℕ := x / 2 ^ n + x % 2 ^ n * 2 ^ (32 - n)

/-- Logical shift right. -/
def shr (n x : ℕ) : ℕ := x / 2 ^ n

/-- SHA-256 Σ0. -/
def bsig0 (x : ℕ) : ℕ := rotr 2 x ^^^ rotr 13 x ^^^ rotr 22 x

/-- SHA-256 Σ1. -/
def bsig1 (x : ℕ) : ℕ := rotr 6 x ^^^ rotr 11 x ^^^ rotr 25 x

/-- SHA-256 σ0. -/
def ssig0 (x : ℕ) : ℕ := rotr 7 x ^^^ rotr 18 x ^^^ shr 3 x

/-- SHA-256 σ1. -/
def ssig1 (x : ℕ) : ℕ := rotr 17 x ^^^ rotr 19 x ^^^ shr 10 x

/-- The SHA-256 round constants (FIPS 180-4). -/
def shaK : List ℕ :=
  [1116352408, 1899447441, 3049323471, 3921009573, 961987163, 1508970993,
   2453635748, 2870763221, 3624381080, 310598401, 607225278, 1426881987,
   1925078388, 2162078206, 2614888103, 3248222580, 3835390401, 4022224774,
   264347078, 604807628, 770255983, 1249150122, 1555081692, 1996064986,
   2554220882, 2821834349, 2952996808, 3210313671, 3336571891, 3584528711,
   113926993, 338241895, 666307205, 773529912, 1294757372, 1396182291,
   1695183700, 1986661051, 2177026350, 2456956037, 2730485921, 2820302411,
   3259730800, 3345764771, 3516065817, 3600352804, 4094571909, 275423344,
   430227734, 506948616, 659060556, 883997877, 958139571, 1322822218,
   1537002063, 1747873779, 1955562222, 2024104815, 2227730452, 2361852424,
   2428436474, 2756734187, 3204031479, 3329325298]

/-- The SHA-256 initial state (FIPS 180-4). -/
def shaInit : ℕ × ℕ × ℕ × ℕ × ℕ × ℕ × ℕ × ℕ :=
  (1779033703, 3144134277, 1013904242, 2773480762,
   1359893119, 2600822924, 528734635, 1541459225)

/-- One message-schedule extension step: append
`w[n-16] + σ0(w[n-15]) + w[n-7] + σ1(w[n-2]) mod 2^32`. -/
def schedStep (ws : List ℕ) : List ℕ :=
  let n := ws.length
  ws ++ [(ws.getD (n - 16) 0 + ssig0 (ws.getD (n - 15) 0) + ws.getD (n - 7) 0 +
    ssig1 (ws.getD (n - 2) 0)) % w32]

/-- Iterate the schedule extension `k` times (48 for SHA-256). -/
def schedIter : ℕ → List ℕ → List ℕ
  | 0, ws => ws
  | k + 1, ws => schedIter k (schedStep ws)

/-- One SHA-256 compression round on the state tuple, consuming `(w_t, k_t)`. -/
def roundStep (st : ℕ × ℕ × ℕ × ℕ × ℕ × ℕ × ℕ × ℕ) (wk : ℕ × ℕ) :
    ℕ × ℕ × ℕ × ℕ × ℕ × ℕ × ℕ × ℕ :=
  match st with
  | (a, b, c, d, e, f, g, h) =>
    let ch := (e &&& f) ^^^ ((e ^^^ 4294967295) &&& g)
    let maj := (a &&& b) ^^^ (a &&& c) ^^^ (b &&& c)
    let t1 := (h + bsig1 e + ch + wk.2 + wk.1) % w32
    let t2 := (bsig0 a + maj) % w32
    ((t1 + t2) % w32, a, b, c, (d + t1) % w32, e, f, g)

/-- Read one 64-byte chunk as 16 big-endian 32-bit words. -/
def wordsOfChunk (c : List ℕ) : List ℕ :=
  (List.range 16).map fun i =>
    c.getD (4 * i) 0 * 16777216 + c.getD (4 * i + 1) 0 * 65536 +
      c.getD (4 * i + 2) 0 * 256 + c.getD (4 * i + 3) 0

/-- Compress one 64-byte chunk into the state. -/
def compressBlock (st : ℕ × ℕ × ℕ × ℕ × ℕ × ℕ × ℕ × ℕ) (chunk : List ℕ) :
    ℕ × ℕ × ℕ × ℕ × ℕ × ℕ × ℕ × ℕ :=
  let ws := schedIter 48 (wordsOfChunk chunk)
  match st, (ws.zip shaK).foldl roundStep st with
  | (a0, b0, c0, d0, e0, f0, g0, h0), (a, b, c, d, e, f, g, h) =>
    ((a0 + a) % w32, (b0 + b) % w32, (c0 + c) % w32, (d0 + d) % w32,
     (e0 + e) % w32, (f0 + f) % w32, (g0 + g) % w32, (h0 + h) % w32)

/-- Big-endian 8-byte encoding of the bit length. -/
def toBytesBE8 (x : ℕ) : List ℕ :=
  [x / 2 ^ 56 % 256, x / 2 ^ 48 % 256, x / 2 ^ 40 % 256, x / 2 ^ 32 % 256,
   x / 2 ^ 24 % 256, x / 2 ^ 16 % 256, x / 2 ^ 8 % 256, x % 256]

/-- SHA-256 padding: `0x80`, zeros to 56 mod 64, 8-byte big-endian bit
length. -/
def padMsg (msg : List ℕ) : List ℕ :=
  let padlen := (64 - (msg.length + 9) % 64) % 64
  msg ++ 128 :: (List.replicate padlen 0 ++ toBytesBE8 (8 * msg.length))

/-- Split into 64-byte chunks (exact fuel: the list length). -/
def chunksAux : ℕ → List ℕ → List (List ℕ)
  | 0, _ => []
  | _ + 1, [] => []
  | k + 1, l => l.take 64 :: chunksAux k (l.drop 64)

/-- 64-byte chunks of a padded message. -/
def chunks (l : List ℕ) : List (List ℕ) := chunksAux l.length l

/-- Big-endian 4-byte encoding of one state word. -/
def toBytesBE4 (x : ℕ) : List ℕ :=
  [x / 16777216 % 256, x / 65536 % 256, x / 256 % 256, x % 256]

/-- The 32-byte digest of a final state. -/
def outBytes (st : ℕ × ℕ × ℕ × ℕ × ℕ × ℕ × ℕ × ℕ) : List ℕ :=
  match st with
  | (a, b, c, d, e, f, g, h) =>
    toBytesBE4 a ++ toBytesBE4 b ++ toBytesBE4 c ++ toBytesBE4 d ++
    toBytesBE4 e ++ toBytesBE4 f ++ toBytesBE4 g ++ toBytesBE4 h

/-- SHA-256 over a byte list (model of the `sha2` crate's `Sha256`). -/
def sha256 (msg : List ℕ) : List ℕ :=
  outBytes ((chunks (padMsg msg)).foldl compressBlock shaInit)

end Sha256Model

section TracingModel

/-- The prime order ℓ of the Ristretto group (= the scalar field modulus of
curve25519-dalek): `2^252 + 27742317777372353535851937790883648493`. -/
def ell : ℕ :=
  7237005577332262213973186563042994240857116359379907606001950938285454250989

/-- Little-endian byte interpretation (dalek scalars are little-endian). -/
def from_bytes_le (bs : List ℕ) : ℕ := bs.foldr (fun b acc => b + 256 * acc) 0

/-- `Scalar::from_bytes_mod_order`: interpret 32 little-endian bytes mod ℓ. -/
def from_bytes_mod_order (bs : List ℕ) : ZMod ell := (from_bytes_le bs : ZMod ell)

/-- `Scalar::from_bytes_mod_order_wide`: 64 little-endian bytes mod ℓ. -/
def from_bytes_mod_order_wide (bs : List ℕ) : ZMod ell :=
  (from_bytes_le bs : ZMod ell)

/-- `Scalar::as_bytes`: canonical 32-byte little-endian encoding of a reduced
scalar. -/
def scalarBytes (s : ZMod ell) : List ℕ :=
  (List.range 32).map fun i => s.val / 256 ^ i % 256

/-- `tracing.rs` `AdmitterKey`. -/
structure AdmitterKey (G : Type) where
  sk : ZMod ell
  pk : G

/-- `tracing.rs` `TraceToken`. -/
structure TraceToken where
  msg_hash : List ℕ
  tau : ZMod ell

/-- `tracing.rs` `TraceCiphertext`. -/
structure TraceCiphertext (G : Type) where
  c1 : G
  c2 : List ℕ
  msg_hash : List ℕ

variable {G : Type} [AddCommGroup G] [Module (ZMod ell) G]

/-- `tracing.rs` `setup_admitter`: `sk` from 64 sampled bytes;
`pk = RistrettoPoint::default() * sk`.  In curve25519-dalek,
`RistrettoPoint::default()` is the additive identity, modeled as `0 : G`
(the spec's canonical prime-order basepoint would be a distinguished
non-identity generator instead). -/
def setup_admitter (buf : List ℕ) : AdmitterKey G :=
  let sk := from_bytes_mod_order_wide buf
  { sk := sk, pk := sk • (0 : G) }

/-- `tracing.rs` `admitter_issue_token`: `msg_hash = SHA-256(m)`,
`tau = msg_hash-as-scalar * sk`. -/
def admitter_issue_token (ad : AdmitterKey G) (message : List ℕ) : TraceToken :=
  let mh := sha256 message
  { msg_hash := mh, tau := from_bytes_mod_order mh * ad.sk }

/-- `tracing.rs` `trace_encrypt`: `C1 = RistrettoPoint::default() * r`
(again the identity, `0 : G`), `key = SHA-256(C1-compressed ‖ tau ‖ label)`,
`C2[i] = key[i] XOR share[i]` for `i < 32` — the `share[i]` index panics when
`share` has fewer than 32 bytes, modeled as `none`. -/
def trace_encrypt (compress : G → List ℕ) (token : TraceToken)
    (share label rbuf : List ℕ) : Option (TraceCiphertext G) :=
  let r := from_bytes_mod_order_wide rbuf
  let c1 : G := r • (0 : G)
  let key := sha256 (compress c1 ++ scalarBytes token.tau ++ label)
  if 32 ≤ share.length then
    some { c1 := c1,
           c2 := List.zipWith (fun a b => a ^^^ b) (key.take 32) (share.take 32),
           msg_hash := token.msg_hash }
  else none

/-- `tracing.rs` `trace_decrypt`: refuse on `msg_hash` mismatch, derive
`key = SHA-256(C1-compressed ‖ tau)` (no label!), output `key XOR C2`. -/
def trace_decrypt (compress : G → List ℕ) (token : TraceToken)
    (tc : TraceCiphertext G) : Option (List ℕ) :=
  if tc.msg_hash ≠ token.msg_hash then none
  else
    let key := sha256 (compress tc.c1 ++ scalarBytes token.tau)
    some (List.zipWith (fun a b => a ^^^ b) (key.take 32) tc.c2)

end TracingModel

-- ===================== Theorems =====================

section PolyLemmas

variable {F : Type} [Field F]

theorem polyEval_foldl_aux (x : F) (coeffs : List F) :
    ∀ acc pw : F,
      (coeffs.foldl (fun (ap : F × F) c => (ap.1 + c * ap.2, ap.2 * x)) (acc, pw)).1
        = acc + pw * hornerEval coeffs x := by
  induction coeffs with
  | nil => intro acc pw; simp [hornerEval]
  | cons c cs ih =>
    intro acc pw
    simp only [List.foldl_cons, List.foldr_cons, hornerEval] at *
    rw [ih]
    ring

theorem Poly.eval_eq_horner (coeffs : List F) (x : F) :
    Poly.eval coeffs x = hornerEval coeffs x := by
  have h := polyEval_foldl_aux x coeffs 0 1
  simpa [Poly.eval] using h

theorem toPoly_nil : toPoly ([] : List F) = 0 := rfl

theorem toPoly_cons (c : F) (cs : List F) :
    toPoly (c :: cs) = Polynomial.C c + Polynomial.X * toPoly cs := rfl

theorem toPoly_eval (coeffs : List F) (x : F) :
    (toPoly coeffs).eval x = hornerEval coeffs x := by
  induction coeffs with
  | nil => simp [toPoly_nil, hornerEval]
  | cons c cs ih =>
    rw [toPoly_cons]
    simp only [hornerEval, List.foldr_cons, Polynomial.eval_add,
      Polynomial.eval_mul, Polynomial.eval_C, Polynomial.eval_X]
    rw [ih]
    rfl

theorem toPoly_degree_lt (coeffs : List F) :
    (toPoly coeffs).degree < (coeffs.length : ℕ) := by
  induction coeffs with
  | nil =>
    rw [toPoly_nil, Polynomial.degree_zero]
    exact WithBot.bot_lt_coe 0
  | cons c cs ih =>
    rw [toPoly_cons]
    have hd := Polynomial.degree_add_le (Polynomial.C c) (Polynomial.X * toPoly cs)
    refine lt_of_le_of_lt hd (max_lt ?_ ?_)
    · refine lt_of_le_of_lt Polynomial.degree_C_le ?_
      exact_mod_cast Nat.succ_pos cs.length
    · rcases eq_or_ne (toPoly cs) 0 with h0 | h0
      · rw [h0, mul_zero, Polynomial.degree_zero]
        exact WithBot.bot_lt_coe _
      · rw [Polynomial.degree_mul, Polynomial.degree_X]
        have h1 : (1 : WithBot ℕ) + (toPoly cs).degree < 1 + (cs.length : ℕ) :=
          WithBot.add_lt_add_left (by simp) ih
        refine lt_of_lt_of_le h1 (le_of_eq ?_)
        rw [List.length_cons]
        push_cast
        ring

/-- `Poly.eval` of a polynomial with zero constant term at `0` is `0`
(`r(0) = u(0) = 0` in `kgen`). -/
theorem Poly.eval_zero_constant (tail : List F) :
    Poly.eval (sample_poly_with_constant 0 tail) 0 = 0 := by
  simp [Poly.eval_eq_horner, sample_poly_with_constant, hornerEval]

/-- `Poly.eval` at `0` returns the constant term. -/
theorem Poly.eval_const (c0 : F) (tail : List F) :
    Poly.eval (sample_poly_with_constant c0 tail) 0 = c0 := by
  simp [Poly.eval_eq_horner, sample_poly_with_constant, hornerEval]

end PolyLemmas

section LagrangeLemmas

variable {F : Type} [Field F]

theorem lagrange_foldl (i : ℕ) (ss : List ℕ) :
    ∀ n d : F,
      (ss.foldl (fun (nd : F × F) k =>
          if k = i then nd else (nd.1 * (k : F), nd.2 * ((k : F) - (i : F)))) (n, d))
        = (n * ((ss.filter fun k => k ≠ i).map fun (k : ℕ) => (k : F)).prod,
           d * ((ss.filter fun k => k ≠ i).map fun (k : ℕ) => (k : F) - (i : F)).prod) := by
  induction ss with
  | nil => intro n d; simp
  | cons k ks ih =>
    intro n d
    by_cases hk : k = i
    · rw [List.foldl_cons, if_pos hk, List.filter_cons, if_neg (by simp [hk])]
      exact ih n d
    · rw [List.foldl_cons, if_neg hk, List.filter_cons, if_pos (by simp [hk])]
      rw [ih]
      simp only [List.map_cons, List.prod_cons, Prod.mk.injEq]
      exact ⟨by ring, by ring⟩

theorem prod_mul_prod_inv (i : ℕ) (l : List ℕ) :
    ((l.map fun (k : ℕ) => (k : F)).prod) * (((l.map fun (k : ℕ) => (k : F) - (i : F)).prod)⁻¹)
      = (l.map fun (k : ℕ) => (k : F) * ((k : F) - (i : F))⁻¹).prod := by
  induction l with
  | nil => simp
  | cons a as ih =>
    simp only [List.map_cons, List.prod_cons]
    rw [mul_inv, ← ih]
    ring

/-- The value `lagrange_coeff` actually computes:
`Π_{k ∈ SS, k ≠ i} k * (k - i)⁻¹` (duplicates contribute repeated factors;
`k = i` entries are skipped; no failure is possible). -/
theorem lagrange_coeff_eq_prod (i : ℕ) (ss : List ℕ) :
    lagrange_coeff F i ss
      = ((ss.filter fun k => k ≠ i).map fun (k : ℕ) => (k : F) * ((k : F) - (i : F))⁻¹).prod := by
  unfold lagrange_coeff
  rw [lagrange_foldl]
  simp only [one_mul]
  exact prod_mul_prod_inv i _

end LagrangeLemmas

section Interpolation

variable {F : Type} [Field F]

theorem toFinset_erase_filter (ss : List ℕ) (j : ℕ) :
    ss.toFinset.erase j = (ss.filter fun k => k ≠ j).toFinset := by
  ext a
  simp [Finset.mem_erase, List.mem_toFinset, List.mem_filter, and_comm]

theorem basis_eval_zero (ss : List ℕ) (hnd : ss.Nodup)
    (hinj : ∀ a ∈ ss, ∀ b ∈ ss, (a : F) = (b : F) → a = b)
    (j : ℕ) (hj : j ∈ ss) :
    (Lagrange.basis ss.toFinset (fun k : ℕ => (k : F)) j).eval 0
      = lagrange_coeff F j ss := by
  rw [Lagrange.basis, Polynomial.eval_prod, toFinset_erase_filter]
  rw [List.prod_toFinset _ (hnd.filter _)]
  rw [lagrange_coeff_eq_prod]
  refine congrArg List.prod (List.map_congr_left ?_)
  intro k hk
  have hkss : k ∈ ss := (List.mem_filter.mp hk).1
  have hkj : k ≠ j := by
    have := (List.mem_filter.mp hk).2
    simpa using this
  have hcast : (k : F) - (j : F) ≠ 0 := by
    refine sub_ne_zero.mpr fun hh => hkj (hinj k hkss j hj hh)
  rw [Lagrange.basisDivisor]
  simp only [Polynomial.eval_mul, Polynomial.eval_C, Polynomial.eval_sub,
    Polynomial.eval_X]
  rw [show (j : F) - (k : F) = -((k : F) - (j : F)) by ring, inv_neg]
  ring

/-- Lagrange reconstruction at `0`: for a coefficient list of length `|SS|`
and pairwise-distinct nodes `SS` (distinct as field elements),
`Σ_{j ∈ SS} lagrange_coeff(j, SS) * f(j) = f(0)`. -/
theorem lagrange_interpolation_sum (coeffs : List F) (ss : List ℕ)
    (hnd : ss.Nodup)
    (hinj : ∀ a ∈ ss, ∀ b ∈ ss, (a : F) = (b : F) → a = b)
    (hlen : coeffs.length = ss.length) :
    (ss.map fun j => lagrange_coeff F j ss * Poly.eval coeffs (j : F)).sum
      = Poly.eval coeffs 0 := by
  classical
  have hvs : Set.InjOn (fun k : ℕ => (k : F)) ss.toFinset := by
    intro a ha b hb h
    exact hinj a (List.mem_toFinset.mp ha) b (List.mem_toFinset.mp hb) h
  have hdeg : (toPoly coeffs).degree < ss.toFinset.card := by
    rw [List.toFinset_card_of_nodup hnd, ← hlen]
    exact toPoly_degree_lt coeffs
  have key := Lagrange.eq_interpolate hvs hdeg
  have hev := congrArg (Polynomial.eval 0) key
  rw [Lagrange.interpolate_apply] at hev
  rw [Polynomial.eval_finset_sum] at hev
  have hsum : ∀ i ∈ ss.toFinset,
      (Polynomial.C ((toPoly coeffs).eval ((i : ℕ) : F)) *
        Lagrange.basis ss.toFinset (fun k : ℕ => (k : F)) i).eval 0
        = lagrange_coeff F i ss * Poly.eval coeffs ((i : ℕ) : F) := by
    intro i hi
    rw [Polynomial.eval_mul, Polynomial.eval_C,
      basis_eval_zero ss hnd hinj i (List.mem_toFinset.mp hi),
      toPoly_eval, ← Poly.eval_eq_horner]
    ring
  rw [Finset.sum_congr rfl hsum] at hev
  rw [List.sum_toFinset _ hnd] at hev
  rw [← hev, toPoly_eval, ← Poly.eval_eq_horner]

end Interpolation

section Nizk

variable {F : Type} [Field F] {G : Type} [AddCommGroup G] [Module F G]
variable [DecidableEq G]

/-- Completeness of the Σ-protocol: an honestly produced proof passes all
three verification equations (shared helper). -/
theorem sig_prove_verify_ok (Ω : Oracles F G) (par : Params G) (g0 g1 : G)
    (rho : B32) (a : F) (sk : SecretKeyShare F) (A B pk : G)
    (hA : A = a • par.g + sk.r • g0 + sk.u • g1)
    (hB : B = a • par.g + sk.r • Ω.f0 rho + sk.u • Ω.f1 rho)
    (hpk : pk = sk.s • par.g + sk.r • par.h + sk.u • par.v)
    (ah sh rh uh : F) :
    sig_verify Ω par pk A B g0 g1 rho
      (sig_prove Ω par pk A B g0 g1 rho a sk ah sh rh uh) = true := by
  simp only [sig_prove, sig_verify, enc_point, dec_point,
    Bool.and_eq_true, decide_eq_true_eq]
  subst hA hB hpk
  refine ⟨⟨?_, ?_⟩, ?_⟩ <;> module

/-- C2: NIZK completeness.  For every params, generators `g0, g1`, `rho`,
witness `(a, s, r, u)` and the statement points
`A = g*a + g0*r + g1*u`, `B = g*a + F0(rho)*r + F1(rho)*u`,
`pk = g*s + h*r + v*u`, the proof produced by `sig_prove` (for every choice of
hat randomness) is accepted by `sig_verify`. -/
theorem claim_C2_nizk_completeness (Ω : Oracles F G) (par : Params G)
    (g0 g1 : G) (rho : B32) (a : F) (sk : SecretKeyShare F) (A B pk : G)
    (hA : A = a • par.g + sk.r • g0 + sk.u • g1)
    (hB : B = a • par.g + sk.r • Ω.f0 rho + sk.u • Ω.f1 rho)
    (hpk : pk = sk.s • par.g + sk.r • par.h + sk.u • par.v)
    (ah sh rh uh : F) :
    sig_verify Ω par pk A B g0 g1 rho
      (sig_prove Ω par pk A B g0 g1 rho a sk ah sh rh uh) = true :=
  sig_prove_verify_ok Ω par g0 g1 rho a sk A B pk hA hB hpk ah sh rh uh

/-- C2 witness: the completeness theorem applied at a closed instance
(`F = G = ZMod 5`, constant oracles, zero witness). -/
theorem claim_C2_nizk_completeness_witness :
    ((0 : ZMod 5) = (0 : ZMod 5) • par5.g + (0 : ZMod 5) • (0 : ZMod 5)
        + (0 : ZMod 5) • (0 : ZMod 5)) ∧
    sig_verify oracles5 par5 0 0 0 0 0 0
      (sig_prove oracles5 par5 0 0 0 0 0 0 0 ⟨0, 0, 0⟩ 0 0 0 0) = true :=
  ⟨by decide,
   claim_C2_nizk_completeness oracles5 par5 0 0 0 0 ⟨0, 0, 0⟩ 0 0 0
     (by decide) (by decide) (by decide) 0 0 0 0⟩

end Nizk

section Pedersen

variable {F : Type} [Field F] {G : Type} [AddCommGroup G] [Module F G]

theorem foldl_decAddCom_honest {α : Type} (idf : α → ℕ) (f : α → G) (l : List α) :
    ∀ s : G,
      ((l.map fun a => CommitmentMsg.mk (idf a) (enc_point (f a))).foldl
          decAddCom (some s))
        = some (s + (l.map f).sum) := by
  induction l with
  | nil => intro s; simp [decAddCom]
  | cons p ps ih =>
    intro s
    simp only [List.map_cons, List.foldl_cons]
    show List.foldl decAddCom (some (s + f p))
        (ps.map fun a => CommitmentMsg.mk (idf a) (enc_point (f a))) = _
    rw [ih (s + f p), List.sum_cons]
    rw [add_assoc]

theorem foldl_add_openings (ops : List (CommitmentOpening F)) :
    ∀ a : F, ops.foldl (fun acc o => acc + o.r_i) a = a + (ops.map fun o => o.r_i).sum := by
  induction ops with
  | nil => intro a; simp
  | cons o os ih =>
    intro a
    simp only [List.foldl_cons, List.map_cons, List.sum_cons]
    rw [ih (a + o.r_i), add_assoc]

theorem sum_smul_combo (g h : G) (l : List (ℕ × F × F)) :
    (l.map fun x => x.2.1 • g + x.2.2 • h).sum
      = (l.map fun x => x.2.1).sum • g + (l.map fun x => x.2.2).sum • h := by
  induction l with
  | nil => simp
  | cons x xs ih =>
    simp only [List.map_cons, List.sum_cons, ih, add_smul]
    abel

variable [DecidableEq G]

/-- C9: Pedersen homomorphic aggregation.  For commitments and openings
produced by `commit_z` on scalars `z_i` with randomness `r_i`,
`aggregate_commitments` succeeds and `verify_aggregate` accepts the sum of the
`z_i` together with the aggregated opening. -/
theorem claim_C9_pedersen_aggregation (g h : G) (items : List (ℕ × F × F)) :
    ∃ cb : Option G,
      aggregate_commitments
          (items.map fun x => (commit_z x.1 g h x.2.1 x.2.2).1) = some cb ∧
      verify_aggregate g h cb ((items.map fun x => x.2.1).sum)
          (aggregate_openings
            (items.map fun x => (commit_z x.1 g h x.2.1 x.2.2).2)) = some true := by
  refine ⟨enc_point ((items.map fun x => x.2.1 • g + x.2.2 • h).sum), ?_, ?_⟩
  · show aggregate_commitments
        ((items.map fun x => CommitmentMsg.mk x.1
          (enc_point (x.2.1 • g + x.2.2 • h)))) = _
    rw [aggregate_commitments,
      foldl_decAddCom_honest (fun x => x.1) (fun x => x.2.1 • g + x.2.2 • h) items]
    simp [zero_add]
  · show verify_aggregate g h _ _
      (aggregate_openings (items.map fun x => CommitmentOpening.mk x.1 x.2.2)) = _
    rw [verify_aggregate, aggregate_openings, foldl_add_openings]
    simp only [enc_point, dec_point, zero_add, List.map_map, Option.map_some',
      Option.some.injEq, Function.comp_def, decide_eq_true_eq]
    exact sum_smul_combo g h items

end Pedersen

section LagrangeClaims

/-- C7 counterexample: the claim says `lagrange_coeff(i, SS)` fails (panics or
returns an error) whenever some `k ∈ SS` equals `i`.  In the code the
`k == i` entry is explicitly skipped (`continue`) and the function totally
returns a scalar: on `i = 1`, `SS = [1, 2]` it returns `2/(2-1) = 2`. -/
theorem claim_C7_counterexample : lagrange_coeff (ZMod 5) 1 [1, 2] = 2 := by
  rw [lagrange_coeff_eq_prod]
  norm_num

/-- C7 amended: `lagrange_coeff(i, SS)` never fails; it skips every entry
`k = i`, treats duplicates as repeated factors, maps a non-invertible
denominator through `Scalar::invert`'s total junk value (`0⁻¹ = 0`), and on
every input returns `Π_{k ∈ SS, k ≠ i} k / (k - i)`. -/
theorem claim_C7_amended (F : Type) [Field F] (i : ℕ) (ss : List ℕ) :
    lagrange_coeff F i ss
      = ((ss.filter fun k => k ≠ i).map
          fun (k : ℕ) => (k : F) / ((k : F) - (i : F))).prod := by
  rw [lagrange_coeff_eq_prod]
  refine congrArg List.prod (List.map_congr_left fun k _ => ?_)
  rw [div_eq_mul_inv]

end LagrangeClaims

section PanicClaims

/-- C5: the claim says a 32-byte string that fails to decompress is returned
to the caller as an error, never a panic — in particular in
`aggregate_commitments` and `verify_aggregate`.  The code instead calls
`.expect(...)` and aborts the process; the abort is the `none` value of the
model.  Evaluation at the failing input (a single commitment message whose
point bytes are invalid): both functions hit the process abort. -/
theorem claim_C5_panic_eval :
    aggregate_commitments (G := ZMod 5) [⟨1, none⟩] = none ∧
    verify_aggregate (F := ZMod 5) (G := ZMod 5) 1 1 none 0 0 = none := by
  exact ⟨rfl, rfl⟩

end PanicClaims

section ListLookup

variable {β : Type}

theorem nodup_keys_eq {l : List (ℕ × β)} (hnd : (l.map Prod.fst).Nodup)
    {j : ℕ} {v w : β} (hv : (j, v) ∈ l) (hw : (j, w) ∈ l) : v = w := by
  induction l with
  | nil => cases hv
  | cons a tl ih =>
    rw [List.map_cons, List.nodup_cons] at hnd
    rcases List.mem_cons.mp hv with rfl | hv2
    · rcases List.mem_cons.mp hw with h | hw2
      · exact (congrArg Prod.snd h).symm
      · exact absurd (List.mem_map.mpr ⟨(j, w), hw2, rfl⟩) hnd.1
    · rcases List.mem_cons.mp hw with rfl | hw2
      · exact absurd (List.mem_map.mpr ⟨(j, v), hv2, rfl⟩) hnd.1
      · exact ih hnd.2 hv2 hw2

theorem find_key_eq {l l' : List (ℕ × β)} (hp : l.Perm l')
    (hnd : (l.map Prod.fst).Nodup) {j : ℕ} {v : β} (hmem : (j, v) ∈ l) :
    l'.find? (fun x => x.1 == j) = some (j, v) := by
  have hmem' : (j, v) ∈ l' := hp.mem_iff.mp hmem
  have hsome : (l'.find? (fun x => x.1 == j)).isSome := by
    rw [List.find?_isSome]
    exact ⟨(j, v), hmem', by simp⟩
  rcases Option.isSome_iff_exists.mp hsome with ⟨x, hx⟩
  have hxmem : x ∈ l := hp.mem_iff.mpr (List.mem_of_find?_eq_some hx)
  have hxkey : x.1 = j := by
    have := List.find?_some hx
    simpa using this
  have : x = (j, x.2) := by
    cases x
    simp_all
  rw [hx, this]
  have h2 : x.2 = v := by
    refine nodup_keys_eq hnd ?_ hmem
    rw [← this]
    exact hxmem
  rw [h2]

theorem normalize_find_eq {l : List (ℕ × B32)} (hnd : (l.map Prod.fst).Nodup)
    {j : ℕ} {v : B32} (hmem : (j, v) ∈ l) :
    (normalize_mu_vec l).find? (fun x => x.1 == j) = some (j, v) :=
  find_key_eq (List.mergeSort_perm l _).symm hnd hmem

end ListLookup

section KgenLemmas

variable {F : Type} [Field F] {G : Type} [AddCommGroup G] [Module F G]

theorem kgen_sks_getD (par : Params G) (s0 : F) (sT rT uT : List F)
    (j : ℕ) (hj : 1 ≤ j) (hjn : j ≤ par.n) :
    (kgen par s0 sT rT uT).2.2.getD (j - 1) ⟨0, 0, 0⟩ =
      ⟨Poly.eval (sample_poly_with_constant s0 sT) (j : F),
       Poly.eval (sample_poly_with_constant 0 rT) (j : F),
       Poly.eval (sample_poly_with_constant 0 uT) (j : F)⟩ := by
  have hlt : j - 1 < par.n := by omega
  rw [kgen]
  rw [List.getD_eq_getElem?_getD, List.getElem?_map, List.getElem?_range hlt]
  rw [Option.map_some', Option.getD_some]
  have hj1 : j - 1 + 1 = j := by omega
  rw [hj1]

theorem kgen_pks_getD (par : Params G) (s0 : F) (sT rT uT : List F)
    (j : ℕ) (hj : 1 ≤ j) (hjn : j ≤ par.n) :
    (kgen par s0 sT rT uT).2.1.getD (j - 1) ⟨0⟩ =
      ⟨Poly.eval (sample_poly_with_constant s0 sT) (j : F) • par.g +
       Poly.eval (sample_poly_with_constant 0 rT) (j : F) • par.h +
       Poly.eval (sample_poly_with_constant 0 uT) (j : F) • par.v⟩ := by
  have hlt : j - 1 < par.n := by omega
  rw [kgen]
  rw [List.getD_eq_getElem?_getD, List.getElem?_map, List.getElem?_range hlt]
  rw [Option.map_some', Option.getD_some]
  have hj1 : j - 1 + 1 = j := by omega
  rw [hj1]

theorem kgen_fst (par : Params G) (s0 : F) (sT rT uT : List F) :
    (kgen par s0 sT rT uT).1 = s0 • par.g := rfl

end KgenLemmas

section HonestLemmas

variable {F : Type} [Field F] {G : Type} [AddCommGroup G] [Module F G]

theorem Run.stepOne_eq (R : Run F G) (j : ℕ) :
    R.stepOne j = (⟨j, R.mu j⟩,
      ⟨j, R.aR j, R.rhoR j, R.ptB j, 0, [], 0, 0⟩) := rfl

theorem Run.commitments_eq (R : Run F G) :
    R.commitments = R.SS.map fun j => (j, R.mu j) := rfl

theorem Run.commitments_keys (R : Run F G) :
    R.commitments.map Prod.fst = R.SS := by
  rw [Run.commitments_eq, List.map_map]
  simp [Function.comp_def]

theorem Run.gen0_eq (R : Run F G) :
    R.Ω.g0 R.m (normalize_mu_vec R.commitments) = R.gen0 := rfl

theorem Run.gen1_eq (R : Run F G) :
    R.Ω.g1 R.m (normalize_mu_vec R.commitments) = R.gen1 := rfl

theorem Run.stepTwo_eq (R : Run F G) (j : ℕ) :
    R.stepTwo j =
      ({ i := j, a_i := R.aR j, a_point := enc_point (R.ptA j),
         rho_i := R.rhoR j, b_point := enc_point (R.ptB j),
         proof := sig_prove R.Ω R.par (R.pkS j).pk_i (R.ptA j) (R.ptB j)
           R.gen0 R.gen1 (R.rhoR j) (R.aR j) (R.sk j)
           (R.hat1 j) (R.hat2 j) (R.hat3 j) (R.hat4 j) },
       { i := j, a_i := R.aR j, rho_i := R.rhoR j, b_i := R.ptB j,
         a_i_point := R.ptA j, mu_vec := normalize_mu_vec R.commitments,
         g0 := R.gen0, g1 := R.gen1 }) := rfl

theorem Run.openings_eq (R : Run F G) :
    R.openings = R.SS.map fun j =>
      { i := j, a_i := R.aR j, a_point := enc_point (R.ptA j),
        rho_i := R.rhoR j, b_point := enc_point (R.ptB j),
        proof := sig_prove R.Ω R.par (R.pkS j).pk_i (R.ptA j) (R.ptB j)
          R.gen0 R.gen1 (R.rhoR j) (R.aR j) (R.sk j)
          (R.hat1 j) (R.hat2 j) (R.hat3 j) (R.hat4 j) } := rfl

variable [DecidableEq G]

theorem Run.check_all (R : Run F G) (hnd : R.SS.Nodup)
    (pkMap : List (ℕ × G)) (hpkNd : (pkMap.map Prod.fst).Nodup)
    (hpkMem : ∀ j ∈ R.SS, (j, (R.pkS j).pk_i) ∈ pkMap)
    (hpkEq : ∀ j ∈ R.SS, (R.pkS j).pk_i =
      (R.sk j).s • R.par.g + (R.sk j).r • R.par.h + (R.sk j).u • R.par.v) :
    ∀ om ∈ R.openings,
      checkOpening R.Ω R.par R.gen0 R.gen1
        (normalize_mu_vec R.commitments) pkMap om = true := by
  intro om hom
  rw [Run.openings_eq] at hom
  rcases List.mem_map.mp hom with ⟨j, hj, rfl⟩
  have hmuMem : (j, R.mu j) ∈ R.commitments := by
    rw [Run.commitments_eq]
    exact List.mem_map.mpr ⟨j, hj, rfl⟩
  have hkeys : (R.commitments.map Prod.fst).Nodup := by
    rw [Run.commitments_keys]; exact hnd
  simp only [checkOpening, enc_point, dec_point]
  rw [normalize_find_eq hkeys hmuMem]
  simp only [Option.map_some']
  rw [if_pos (show R.mu j = R.Ω.hcom j (R.rhoR j) (R.ptB j) from rfl)]
  rw [find_key_eq (List.Perm.refl pkMap) hpkNd (hpkMem j hj)]
  simp only [Option.map_some']
  exact sig_prove_verify_ok R.Ω R.par R.gen0 R.gen1 (R.rhoR j) (R.aR j) (R.sk j)
    (R.ptA j) (R.ptB j) ((R.pkS j).pk_i) rfl rfl (hpkEq j hj)
    (R.hat1 j) (R.hat2 j) (R.hat3 j) (R.hat4 j)

theorem foldl_addAHat (ss : List ℕ) (openings : List (OpeningMessage F G))
    (ptf : ℕ → G) (h : ∀ om ∈ openings, om.a_point = some (ptf om.i)) :
    ∀ s : G, openings.foldl (addAHat ss) (some s)
      = some (s + (openings.map fun om => lagrange_coeff F om.i ss • ptf om.i).sum) := by
  induction openings with
  | nil => intro s; simp
  | cons om oms ih =>
    intro s
    have hom := h om (List.mem_cons_self om oms)
    have htl : ∀ o ∈ oms, o.a_point = some (ptf o.i) :=
      fun o ho => h o (List.mem_cons_of_mem om ho)
    simp only [List.foldl_cons, addAHat, dec_point, hom, Option.some_bind,
      Option.map_some']
    rw [ih htl (s + lagrange_coeff F om.i ss • ptf om.i), List.map_cons,
      List.sum_cons, add_assoc]

theorem foldl_add_partials (l : List (PartialSignature F)) :
    ∀ a : F, l.foldl (fun z ps => z + ps.z_i) a = a + (l.map fun ps => ps.z_i).sum := by
  induction l with
  | nil => intro a; simp
  | cons p ps ih =>
    intro a
    simp only [List.foldl_cons, List.map_cons, List.sum_cons]
    rw [ih (a + p.z_i), add_assoc]

theorem Run.foldl_openings (R : Run F G) (ss : List ℕ) :
    ∀ s : G, R.openings.foldl (addAHat ss) (some s)
      = some (s + (R.SS.map fun j => lagrange_coeff F j ss • R.ptA j).sum) := by
  intro s
  have h : ∀ om ∈ R.openings, om.a_point = some (R.ptA om.i) := by
    intro om hom
    rw [Run.openings_eq] at hom
    rcases List.mem_map.mp hom with ⟨j, hj, rfl⟩
    rfl
  rw [foldl_addAHat ss R.openings R.ptA h s]
  rw [Run.openings_eq, List.map_map]
  rfl

theorem Run.sig3_eq (R : Run F G) (hnd : R.SS.Nodup)
    (pkMap : List (ℕ × G)) (hpkNd : (pkMap.map Prod.fst).Nodup)
    (hpkMem : ∀ j ∈ R.SS, (j, (R.pkS j).pk_i) ∈ pkMap)
    (hpkEq : ∀ j ∈ R.SS, (R.pkS j).pk_i =
      (R.sk j).s • R.par.g + (R.sk j).r • R.par.h + (R.sk j).u • R.par.v)
    (i : ℕ) (pk_joint : G) :
    sig3_with_pk R.Ω R.par R.m R.SS i pk_joint pkMap (R.sk i)
      ((R.stepTwo i).2) R.commitments R.openings
      = some ⟨i, lagrange_coeff F i R.SS *
          (R.aR i + R.Ω.hsig R.Ahat pk_joint R.m * (R.sk i).s)⟩ := by
  rw [sig3_with_pk, Run.gen0_eq, Run.gen1_eq]
  rw [if_pos (List.all_eq_true.mpr fun om hom =>
    R.check_all hnd pkMap hpkNd hpkMem hpkEq om hom)]
  rw [Run.foldl_openings R R.SS 0]
  rw [Option.map_some']
  rw [zero_add]
  rfl

theorem Run.combine_eq (R : Run F G) (partials : List (PartialSignature F)) :
    combine R.SS R.openings partials
      = some ⟨R.Ahat, (partials.map fun ps => ps.z_i).sum⟩ := by
  rw [combine, Run.foldl_openings R R.SS 0, Option.map_some', zero_add,
    foldl_add_partials, zero_add]
  rfl

end HonestLemmas

section SumAlgebra

variable {F : Type} [Field F] {G : Type} [AddCommGroup G] [Module F G]

theorem sum_smul_three (gg h0 h1 : G) (l : List ℕ) (c x y z : ℕ → F) :
    (l.map fun j => c j • (x j • gg + y j • h0 + z j • h1)).sum
      = (l.map fun j => c j * x j).sum • gg
        + (l.map fun j => c j * y j).sum • h0
        + (l.map fun j => c j * z j).sum • h1 := by
  induction l with
  | nil => simp
  | cons a as ih =>
    simp only [List.map_cons, List.sum_cons]
    rw [ih]
    simp only [smul_add, smul_smul, add_smul]
    abel

theorem sum_mul_split (l : List ℕ) (c : F) (lc a s : ℕ → F) :
    (l.map fun j => lc j * (a j + c * s j)).sum
      = (l.map fun j => lc j * a j).sum + c * (l.map fun j => lc j * s j).sum := by
  induction l with
  | nil => simp
  | cons k ks ih =>
    simp only [List.map_cons, List.sum_cons, ih]
    ring

theorem Run.Ahat_decomp (R : Run F G) :
    R.Ahat = (R.SS.map fun j => lagrange_coeff F j R.SS * R.aR j).sum • R.par.g
      + (R.SS.map fun j => lagrange_coeff F j R.SS * (R.sk j).r).sum • R.gen0
      + (R.SS.map fun j => lagrange_coeff F j R.SS * (R.sk j).u).sum • R.gen1 := by
  rw [Run.Ahat]
  simp only [Run.ptA]
  exact sum_smul_three R.par.g R.gen0 R.gen1 R.SS
    (fun j => lagrange_coeff F j R.SS) R.aR (fun j => (R.sk j).r)
    (fun j => (R.sk j).u)

end SumAlgebra

section ThresholdCorrectness

/-- C1: correctness of threshold signing.  For `1 ≤ t < n`, a signing set `SS`
of `t+1` distinct ids in `{1..n}` (distinct as scalars), keys from
`kgen(setup(n, t))`, and honest per-signer runs of `sig1` / `sig2` /
`sig3_with_pk` over the collected commitments and openings: `sig3_with_pk`
returns `some` partial signature for every signer, `combine` over those
openings and partials returns `some` signature `(A_hat, z)`, and
`verify(par, pk, m, (A_hat, z))` returns `true`. -/
theorem claim_C1_threshold_signing {F G : Type} [Field F] [AddCommGroup G]
    [Module F G] [DecidableEq G]
    (Ω : Oracles F G) (bp : G) (n t : ℕ) (SS : List ℕ) (m : List ℕ)
    (s0 : F) (sT rT uT : List F)
    (aR : ℕ → F) (rhoR : ℕ → B32) (h1 h2 h3 h4 : ℕ → F)
    (ht : 1 ≤ t) (htn : t < n)
    (hsT : sT.length = t) (hrT : rT.length = t) (huT : uT.length = t)
    (hSSlen : SS.length = t + 1) (hSSnd : SS.Nodup)
    (hSSrange : ∀ j ∈ SS, 1 ≤ j ∧ j ≤ n)
    (hinj : ∀ a ∈ SS, ∀ b ∈ SS, (a : F) = (b : F) → a = b)
    (par : Params G) (kg : G × List (PublicKeyShare G) × List (SecretKeyShare F))
    (pkMap : List (ℕ × G)) (R : Run F G)
    (hpar : par = setup Ω bp n t)
    (hkg : kg = kgen par s0 sT rT uT)
    (hpkMap : pkMap = (List.range n).map fun k => (k + 1, (kg.2.1.getD k ⟨0⟩).pk_i))
    (hR : R = Run.mk Ω par m SS (fun j => kg.2.2.getD (j - 1) ⟨0, 0, 0⟩)
      (fun j => kg.2.1.getD (j - 1) ⟨0⟩) aR rhoR h1 h2 h3 h4) :
    (∀ j ∈ SS, sig3_with_pk Ω par m SS j kg.1 pkMap (R.sk j) ((R.stepTwo j).2)
        R.commitments R.openings
      = some ⟨j, lagrange_coeff F j SS * (aR j + Ω.hsig R.Ahat kg.1 m * (R.sk j).s)⟩)
    ∧ combine SS R.openings (SS.map fun j =>
        ⟨j, lagrange_coeff F j SS * (aR j + Ω.hsig R.Ahat kg.1 m * (R.sk j).s)⟩)
      = some (Signature.mk R.Ahat ((SS.map fun j =>
          lagrange_coeff F j SS * (aR j + Ω.hsig R.Ahat kg.1 m * (R.sk j).s)).sum))
    ∧ verify Ω par kg.1 m (Signature.mk R.Ahat ((SS.map fun j =>
        lagrange_coeff F j SS * (aR j + Ω.hsig R.Ahat kg.1 m * (R.sk j).s)).sum))
      = true := by
  subst hkg hpkMap hR hpar
  have hparn : (setup Ω bp n t).n = n := rfl
  have hsk : ∀ j ∈ SS, (kgen (setup Ω bp n t) s0 sT rT uT).2.2.getD (j - 1) ⟨0, 0, 0⟩
      = ⟨Poly.eval (sample_poly_with_constant s0 sT) (j : F),
         Poly.eval (sample_poly_with_constant 0 rT) (j : F),
         Poly.eval (sample_poly_with_constant 0 uT) (j : F)⟩ := by
    intro j hj
    exact kgen_sks_getD (setup Ω bp n t) s0 sT rT uT j (hSSrange j hj).1
      (hSSrange j hj).2
  have hpks : ∀ j ∈ SS, (kgen (setup Ω bp n t) s0 sT rT uT).2.1.getD (j - 1) ⟨0⟩
      = ⟨Poly.eval (sample_poly_with_constant s0 sT) (j : F) • (setup Ω bp n t).g +
         Poly.eval (sample_poly_with_constant 0 rT) (j : F) • (setup Ω bp n t).h +
         Poly.eval (sample_poly_with_constant 0 uT) (j : F) • (setup Ω bp n t).v⟩ := by
    intro j hj
    exact kgen_pks_getD (setup Ω bp n t) s0 sT rT uT j (hSSrange j hj).1
      (hSSrange j hj).2
  have hpkNd : (((List.range n).map fun k =>
      (k + 1, ((kgen (setup Ω bp n t) s0 sT rT uT).2.1.getD k ⟨0⟩).pk_i)).map
        Prod.fst).Nodup := by
    rw [List.map_map]
    refine List.Nodup.map ?_ (List.nodup_range n)
    intro a b hab
    simp only [Function.comp_apply] at hab
    omega
  have hpkMem : ∀ j ∈ SS,
      (j, ((kgen (setup Ω bp n t) s0 sT rT uT).2.1.getD (j - 1) ⟨0⟩).pk_i)
        ∈ (List.range n).map fun k =>
            (k + 1, ((kgen (setup Ω bp n t) s0 sT rT uT).2.1.getD k ⟨0⟩).pk_i) := by
    intro j hj
    refine List.mem_map.mpr ⟨j - 1, List.mem_range.mpr (by
      have := hSSrange j hj; omega), ?_⟩
    have hj1 : j - 1 + 1 = j := by have := hSSrange j hj; omega
    rw [hj1]
  have hpkEq : ∀ j ∈ SS,
      ((kgen (setup Ω bp n t) s0 sT rT uT).2.1.getD (j - 1) ⟨0⟩).pk_i
        = ((kgen (setup Ω bp n t) s0 sT rT uT).2.2.getD (j - 1) ⟨0, 0, 0⟩).s •
            (setup Ω bp n t).g +
          ((kgen (setup Ω bp n t) s0 sT rT uT).2.2.getD (j - 1) ⟨0, 0, 0⟩).r •
            (setup Ω bp n t).h +
          ((kgen (setup Ω bp n t) s0 sT rT uT).2.2.getD (j - 1) ⟨0, 0, 0⟩).u •
            (setup Ω bp n t).v := by
    intro j hj
    rw [hsk j hj, hpks j hj]
  set R := Run.mk Ω (setup Ω bp n t) m SS
    (fun j => (kgen (setup Ω bp n t) s0 sT rT uT).2.2.getD (j - 1) ⟨0, 0, 0⟩)
    (fun j => (kgen (setup Ω bp n t) s0 sT rT uT).2.1.getD (j - 1) ⟨0⟩)
    aR rhoR h1 h2 h3 h4 with hRdef
  refine ⟨?_, ?_, ?_⟩
  · intro j hj
    exact R.sig3_eq hSSnd _ hpkNd hpkMem hpkEq j
      ((kgen (setup Ω bp n t) s0 sT rT uT).1)
  · refine (R.combine_eq (SS.map fun j =>
      ⟨j, lagrange_coeff F j SS * (aR j +
        Ω.hsig R.Ahat (kgen (setup Ω bp n t) s0 sT rT uT).1 m * (R.sk j).s)⟩)).trans ?_
    rw [List.map_map]
    rfl
  · simp only [verify, decide_eq_true_eq]
    rw [kgen_fst]
    have hlenS : (sample_poly_with_constant s0 sT).length = SS.length := by
      simp [sample_poly_with_constant, hsT, hSSlen]
    have hlenR : (sample_poly_with_constant (0 : F) rT).length = SS.length := by
      simp [sample_poly_with_constant, hrT, hSSlen]
    have hlenU : (sample_poly_with_constant (0 : F) uT).length = SS.length := by
      simp [sample_poly_with_constant, huT, hSSlen]
    set c := Ω.hsig R.Ahat (s0 • (setup Ω bp n t).g) m with hc
    have hskR : ∀ j ∈ SS, R.sk j
        = ⟨Poly.eval (sample_poly_with_constant s0 sT) (j : F),
           Poly.eval (sample_poly_with_constant 0 rT) (j : F),
           Poly.eval (sample_poly_with_constant 0 uT) (j : F)⟩ :=
      fun j hj => hsk j hj
    have hzs : (SS.map fun j => lagrange_coeff F j SS * (aR j + c *
        ((kgen (setup Ω bp n t) s0 sT rT uT).2.2.getD (j - 1) ⟨0, 0, 0⟩).s))
        = SS.map fun j => lagrange_coeff F j SS *
            (aR j + c * Poly.eval (sample_poly_with_constant s0 sT) (j : F)) := by
      refine List.map_congr_left fun j hj => ?_
      rw [hsk j hj]
    have hsums : (SS.map fun j => lagrange_coeff F j SS *
        Poly.eval (sample_poly_with_constant s0 sT) ((j : ℕ) : F)).sum = s0 := by
      rw [lagrange_interpolation_sum _ SS hSSnd hinj hlenS, Poly.eval_const]
    have hsumr : (SS.map fun j => lagrange_coeff F j SS * (R.sk j).r).sum = 0 := by
      have hmap : (SS.map fun j => lagrange_coeff F j SS * (R.sk j).r)
          = SS.map fun j => lagrange_coeff F j SS *
              Poly.eval (sample_poly_with_constant 0 rT) (j : F) := by
        refine List.map_congr_left fun j hj => ?_
        rw [hskR j hj]
      rw [hmap, lagrange_interpolation_sum _ SS hSSnd hinj hlenR,
        Poly.eval_zero_constant]
    have hsumu : (SS.map fun j => lagrange_coeff F j SS * (R.sk j).u).sum = 0 := by
      have hmap : (SS.map fun j => lagrange_coeff F j SS * (R.sk j).u)
          = SS.map fun j => lagrange_coeff F j SS *
              Poly.eval (sample_poly_with_constant 0 uT) (j : F) := by
        refine List.map_congr_left fun j hj => ?_
        rw [hskR j hj]
      rw [hmap, lagrange_interpolation_sum _ SS hSSnd hinj hlenU,
        Poly.eval_zero_constant]
    have hAhat : R.Ahat = (SS.map fun j =>
        lagrange_coeff F j SS * aR j).sum • (setup Ω bp n t).g := by
      have hd := R.Ahat_decomp
      rw [show R.SS = SS from rfl, show R.par = setup Ω bp n t from rfl,
        show R.aR = aR from rfl] at hd
      rw [hd, hsumr, hsumu, zero_smul, zero_smul, add_zero, add_zero]
    rw [hzs, sum_mul_split, hsums, hAhat, add_smul, smul_smul]

end ThresholdCorrectness

section ThresholdWitness

/-- C1 witness: the correctness theorem applied at the closed instance
`F = G = ZMod 5`, `n = 2`, `t = 1`, `SS = [1, 2]`, zero randomness; the
`verify` conjunct of its conclusion is produced by the theorem itself. -/
theorem claim_C1_threshold_signing_witness :
    (([1, 2] : List ℕ).Nodup ∧
      (∀ a ∈ ([1, 2] : List ℕ), ∀ b ∈ ([1, 2] : List ℕ),
        ((a : ℕ) : ZMod 5) = ((b : ℕ) : ZMod 5) → a = b)) ∧
    verify oracles5 (setup oracles5 1 2 1) kg5.1 []
      (Signature.mk run5.Ahat ((([1, 2] : List ℕ).map fun j =>
        lagrange_coeff (ZMod 5) j [1, 2] *
          ((fun _ => (0 : ZMod 5)) j +
            oracles5.hsig run5.Ahat kg5.1 [] * (run5.sk j).s)).sum)) = true :=
  ⟨⟨by decide, by decide⟩,
   (claim_C1_threshold_signing oracles5 1 2 1 [1, 2] [] 0 [0] [0] [0]
     (fun _ => 0) (fun _ => 0) (fun _ => 0) (fun _ => 0) (fun _ => 0) (fun _ => 0)
     (by decide) (by decide) (by decide) (by decide) (by decide) (by decide)
     (by decide) (by decide) (by decide)
     (setup oracles5 1 2 1) kg5 pkMap5 run5 rfl rfl rfl rfl).2.2⟩

end ThresholdWitness

section Sig3Validation

/-- C6 amended: `sig3_with_pk` performs no signing-set size or duplicate
validation at all.  For every honest run over ANY duplicate-free signing set
with consistent key material — in particular sets with fewer than `t+1`
members — it returns `some` partial signature rather than an error. -/
theorem claim_C6_amended {F G : Type} [Field F] [AddCommGroup G] [Module F G]
    [DecidableEq G] (R : Run F G) (hnd : R.SS.Nodup)
    (pkMap : List (ℕ × G)) (hpkNd : (pkMap.map Prod.fst).Nodup)
    (hpkMem : ∀ j ∈ R.SS, (j, (R.pkS j).pk_i) ∈ pkMap)
    (hpkEq : ∀ j ∈ R.SS, (R.pkS j).pk_i =
      (R.sk j).s • R.par.g + (R.sk j).r • R.par.h + (R.sk j).u • R.par.v)
    (i : ℕ) (pk_joint : G) :
    (sig3_with_pk R.Ω R.par R.m R.SS i pk_joint pkMap (R.sk i)
      ((R.stepTwo i).2) R.commitments R.openings).isSome = true := by
  rw [R.sig3_eq hnd pkMap hpkNd hpkMem hpkEq i pk_joint]
  rfl

/-- C6 counterexample: the claim says `sig3_with_pk` returns an error
whenever `|SS| < t + 1`.  At the concrete instance (`t = 1`,
`SS = [1]` of size `1 < 2`, honest single opening) it returns `some`
instead. -/
theorem claim_C6_counterexample :
    ([1] : List ℕ).length < (setup oracles5 (1 : ZMod 5) 2 1).t + 1 ∧
    (sig3_with_pk oracles5 (setup oracles5 1 2 1) [] [1] 1 kg5.1 pkMap5
      (run5single.sk 1) ((run5single.stepTwo 1).2)
      run5single.commitments run5single.openings).isSome = true := by
  refine ⟨by decide, ?_⟩
  have h := run5single.sig3_eq (by decide) pkMap5 (by decide) (by decide)
    (by decide) 1 kg5.1
  rw [show sig3_with_pk oracles5 (setup oracles5 1 2 1) [] [1] 1 kg5.1 pkMap5
      (run5single.sk 1) ((run5single.stepTwo 1).2)
      run5single.commitments run5single.openings = _ from h]
  rfl

/-- C6 amended witness: the amended theorem applied at the closed undersized
instance. -/
theorem claim_C6_amended_witness :
    (run5single.SS.Nodup ∧ (pkMap5.map Prod.fst).Nodup) ∧
    (sig3_with_pk run5single.Ω run5single.par run5single.m run5single.SS 1
      kg5.1 pkMap5 (run5single.sk 1) ((run5single.stepTwo 1).2)
      run5single.commitments run5single.openings).isSome = true :=
  ⟨⟨by decide, by decide⟩,
   claim_C6_amended run5single (by decide) pkMap5 (by decide) (by decide)
     (by decide) 1 kg5.1⟩

end Sig3Validation

section TimedLemmas

theorem pow_2t_mod_eq (n : ℕ) :
    ∀ (t x : ℕ), pow_2t_mod (x % n) t n = x ^ 2 ^ t % n := by
  intro t
  induction t with
  | zero =>
    intro x
    show x % n = x ^ 2 ^ 0 % n
    norm_num
  | succ t ih =>
    intro x
    show pow_2t_mod (x % n * (x % n) % n) t n = _
    rw [← Nat.mul_mod, ih (x * x)]
    congr 1
    rw [← pow_two, ← pow_mul, ← pow_succ']

theorem from_bytes_be_append_singleton (bs : List ℕ) (b : ℕ) :
    from_bytes_be (bs ++ [b]) = from_bytes_be bs * 256 + b := by
  simp [from_bytes_be, List.foldl_append]

theorem from_natBytesBE (k : ℕ) : from_bytes_be (natBytesBE k) = k := by
  induction k using Nat.strong_induction_on with
  | _ k ih =>
    rw [natBytesBE]
    by_cases h : k = 0
    · simp [h, from_bytes_be]
    · rw [dif_neg h, from_bytes_be_append_singleton,
        ih (k / 256) (Nat.div_lt_self (Nat.pos_of_ne_zero h) (by norm_num))]
      omega

theorem from_to_bytes_be (k : ℕ) : from_bytes_be (to_bytes_be k) = k := by
  rw [to_bytes_be]
  by_cases h : k = 0
  · simp [h, from_bytes_be]
  · rw [if_neg h]
    exact from_natBytesBE k

theorem natBytesBE_len (L : ℕ) : ∀ k : ℕ, k < 256 ^ L → (natBytesBE k).length ≤ L := by
  induction L with
  | zero =>
    intro k hk
    have : k = 0 := by simpa using hk
    rw [this, natBytesBE]
    simp
  | succ L ih =>
    intro k hk
    rw [natBytesBE]
    by_cases h : k = 0
    · simp [h]
    · rw [dif_neg h, List.length_append]
      have hdiv : k / 256 < 256 ^ L := by
        rw [Nat.div_lt_iff_lt_mul (by norm_num : (0 : ℕ) < 256)]
        calc k < 256 ^ (L + 1) := hk
        _ = 256 ^ L * 256 := by rw [pow_succ]
      have := ih (k / 256) hdiv
      simp only [List.length_singleton]
      omega

theorem to_bytes_be_len (k : ℕ) (hk : k < 256 ^ 32) :
    (to_bytes_be k).length ≤ 32 := by
  rw [to_bytes_be]
  by_cases h : k = 0
  · simp [h]
  · rw [if_neg h]
    exact natBytesBE_len 32 k hk

theorem from_bytes_be_replicate_zero (p : ℕ) (bs : List ℕ) :
    from_bytes_be (List.replicate p 0 ++ bs) = from_bytes_be bs := by
  induction p with
  | zero => rfl
  | succ p ih =>
    show from_bytes_be (0 :: (List.replicate p 0 ++ bs)) = _
    simpa [from_bytes_be] using ih

theorem egcd_spec : ∀ b a : ℕ, (egcd a b).1 = (Nat.gcd a b : ℤ)
    ∧ (a : ℤ) * (egcd a b).2.1 + (b : ℤ) * (egcd a b).2.2 = (Nat.gcd a b : ℤ) := by
  intro b
  induction b using Nat.strong_induction_on with
  | _ b ih =>
    intro a
    rw [egcd]
    by_cases h : b = 0
    · subst h
      simp
    · rw [dif_neg h]
      dsimp only
      have hlt : a % b < b := Nat.mod_lt a (Nat.pos_of_ne_zero h)
      obtain ⟨hg, hbez⟩ := ih (a % b) hlt b
      have hgcd : Nat.gcd b (a % b) = Nat.gcd a b := by
        rw [Nat.gcd_comm b (a % b), ← Nat.gcd_rec b a, Nat.gcd_comm b a]
      refine ⟨by rw [hg, hgcd], ?_⟩
      have hmod : ((a % b : ℕ) : ℤ) = (a : ℤ) - (b : ℤ) * ((a / b : ℕ) : ℤ) := by
        have h2 := Nat.mod_add_div a b
        have h3 : ((a % b : ℕ) : ℤ) + (b : ℤ) * ((a / b : ℕ) : ℤ) = (a : ℤ) := by
          exact_mod_cast h2
        linarith
      rw [hgcd] at hbez
      calc (a : ℤ) * (egcd b (a % b)).2.2 +
          (b : ℤ) * ((egcd b (a % b)).2.1 - ((a / b : ℕ) : ℤ) * (egcd b (a % b)).2.2)
          = (b : ℤ) * (egcd b (a % b)).2.1 +
            ((a : ℤ) - (b : ℤ) * ((a / b : ℕ) : ℤ)) * (egcd b (a % b)).2.2 := by ring
        _ = (b : ℤ) * (egcd b (a % b)).2.1 +
            ((a % b : ℕ) : ℤ) * (egcd b (a % b)).2.2 := by rw [hmod]
        _ = (Nat.gcd a b : ℤ) := hbez

theorem neg_le_tmod (X m : ℤ) (hm : 0 < m) : -m ≤ X.tmod m := by
  rcases le_or_lt 0 X with hX | hX
  · have := Int.tmod_nonneg m hX
    linarith
  · have hnegX : (0 : ℤ) ≤ -X := by linarith
    have h1 : X.tmod m = -((-X).tmod m) := by
      rw [Int.tmod_def, Int.tmod_def, Int.neg_tdiv]
      ring
    have h2 : (-X).tmod m < m := Int.tmod_lt_of_pos (-X) hm
    linarith [h1, h2]

theorem tmod_modEq (X m : ℤ) : X.tmod m ≡ X [ZMOD m] := by
  have h := Int.tmod_add_tdiv X m
  refine Int.modEq_iff_dvd.mpr ⟨X.tdiv m, ?_⟩
  linarith

theorem modinv_spec (a m : ℕ) (hm : 0 < m) (hco : Nat.gcd a m = 1) :
    ∃ xN : ℕ, modinv a m = some xN ∧ a * xN ≡ 1 [MOD m] := by
  obtain ⟨hg, hbez⟩ := egcd_spec m a
  rw [modinv]
  dsimp only
  rw [hg, hco, Nat.cast_one]
  rw [if_neg (by simp)]
  set X := (egcd a m).2.1 with hX
  set x0 := X.tmod (m : ℤ) with hx0
  set x1 : ℤ := if x0 < 0 then x0 + (m : ℤ) else x0 with hx1
  have hmZ : (0 : ℤ) < (m : ℤ) := by exact_mod_cast hm
  have hx1nonneg : 0 ≤ x1 := by
    rw [hx1]
    split
    · have := neg_le_tmod X (m : ℤ) hmZ
      rw [← hx0] at this
      linarith
    · omega
  have hx1mod : x1 ≡ X [ZMOD (m : ℤ)] := by
    have hbase : x0 ≡ X [ZMOD (m : ℤ)] := tmod_modEq X (m : ℤ)
    rw [hx1]
    split
    · calc x0 + (m : ℤ) ≡ x0 + 0 [ZMOD (m : ℤ)] :=
        Int.ModEq.add_left x0 (Int.modEq_zero_iff_dvd.mpr dvd_rfl)
      _ = x0 := by ring
      _ ≡ X [ZMOD (m : ℤ)] := hbase
    · exact hbase
  have hXinv : (a : ℤ) * X ≡ 1 [ZMOD (m : ℤ)] := by
    rw [hco, Nat.cast_one] at hbez
    refine Int.modEq_iff_dvd.mpr ⟨(egcd a m).2.2, ?_⟩
    linarith
  refine ⟨x1.toNat, rfl, ?_⟩
  have hcast : ((x1.toNat : ℕ) : ℤ) = x1 := Int.toNat_of_nonneg hx1nonneg
  have hfinal : (a : ℤ) * x1 ≡ 1 [ZMOD (m : ℤ)] :=
    ((Int.ModEq.mul_left (a : ℤ) hx1mod).trans hXinv)
  have hdvd := hfinal.dvd
  rw [Nat.modEq_iff_dvd]
  push_cast
  rw [hcast]
  exact hdvd

theorem coprime_mod_left {x N : ℕ} (h : Nat.Coprime x N) :
    Nat.Coprime (x % N) N := by
  unfold Nat.Coprime at *
  rw [← Nat.gcd_rec N x, Nat.gcd_comm]
  exact h

theorem pow_mod_sq_congr (n a b : ℕ) (h : a % n = b % n) :
    a ^ n % (n * n) = b ^ n % (n * n) := by
  have hmod : a ≡ b [MOD n] := h
  have hdvd : ((n : ℤ)) ∣ (a : ℤ) - (b : ℤ) := by
    have := hmod.dvd
    have h2 : ((n : ℤ)) ∣ -((b : ℤ) - (a : ℤ)) := dvd_neg.mpr this
    simpa using h2
  have h2 := dvd_sub_pow_of_dvd_sub (R := ℤ) hdvd 1
  rw [pow_one] at h2
  have h3 : (a ^ n : ℕ) ≡ b ^ n [MOD n * n] := by
    rw [Nat.modEq_iff_dvd]
    push_cast
    have h4 : ((n : ℤ)) ^ 2 ∣ -((a : ℤ) ^ n - (b : ℤ) ^ n) := dvd_neg.mpr h2
    have h5 : ((n : ℤ)) * (n : ℤ) = ((n : ℤ)) ^ 2 := by ring
    rw [h5]
    simpa using h4
  exact h3

theorem one_add_mul_pow_mod (n : ℕ) :
    ∀ s : ℕ, (n + 1) ^ s % (n * n) = (1 + s * n) % (n * n) := by
  intro s
  induction s with
  | zero => simp
  | succ s ih =>
    have ih' : (n + 1) ^ s ≡ 1 + s * n [MOD n * n] := ih
    have step : (n + 1) ^ (s + 1) ≡ (1 + s * n) * (n + 1) [MOD n * n] := by
      rw [pow_succ]
      exact ih'.mul_right (n + 1)
    have hexp : (1 + s * n) * (n + 1) = 1 + (s + 1) * n + s * (n * n) := by ring
    have hdrop : (1 + (s + 1) * n + s * (n * n)) % (n * n)
        = (1 + (s + 1) * n) % (n * n) := Nat.add_mul_mod_self_right _ _ _
    show (n + 1) ^ (s + 1) % (n * n) = (1 + (s + 1) * n) % (n * n)
    rw [show ((n + 1) ^ (s + 1)) % (n * n) = ((1 + s * n) * (n + 1)) % (n * n) from step]
    rw [hexp, hdrop]

/-- C3: timed-release round-trip.  For `TimedParams` with `N = p*q`,
`h = g^(2^T) mod N`, `g` a unit of `Z_N`, every aad, every plaintext encoding
`s < N` that fits in 32 big-endian bytes, and the sampled `r ∈ [1, N²-1]`:
`timed_decrypt(pp, timed_encrypt(pp, plaintext, aad), aad)` returns `some`
of the left-zero-padded 32-byte big-endian encoding of `s` (the returned
list is that padded encoding, has length 32 and decodes back to `s`). -/
theorem claim_C3_timed_roundtrip (pp : TimedParams) (p q : ℕ)
    (hp : p.Prime) (hq : q.Prime) (hN : pp.n = p * q)
    (hh : pp.h = pp.g ^ 2 ^ pp.t % pp.n)
    (hg : Nat.Coprime pp.g pp.n)
    (plaintext aad : List ℕ) (r : ℕ) (hr1 : 1 ≤ r) (hr2 : r < pp.n * pp.n)
    (hs : from_bytes_be plaintext < pp.n)
    (hfit : from_bytes_be plaintext < 256 ^ 32) :
    ∃ ct, timed_encrypt pp plaintext aad r = some ct ∧
      timed_decrypt pp ct aad
        = some (List.replicate
              (32 - (to_bytes_be (from_bytes_be plaintext)).length) 0
            ++ to_bytes_be (from_bytes_be plaintext)) ∧
      (List.replicate (32 - (to_bytes_be (from_bytes_be plaintext)).length) 0
        ++ to_bytes_be (from_bytes_be plaintext)).length = 32 ∧
      from_bytes_be
          (List.replicate (32 - (to_bytes_be (from_bytes_be plaintext)).length) 0
            ++ to_bytes_be (from_bytes_be plaintext))
        = from_bytes_be plaintext := by
  have hN1 : 1 < pp.n := by
    rw [hN]
    have h2p := hp.two_le
    have h2q := hq.two_le
    nlinarith
  have hN0 : 0 < pp.n := by omega
  have hn20 : 0 < pp.n * pp.n := by positivity
  refine ⟨_, by rw [timed_encrypt]; rw [if_pos hs], ?_, ?_, ?_⟩
  · rw [timed_decrypt]
    dsimp only
    rw [if_neg (not_not_intro rfl)]
    rw [from_to_bytes_be, from_to_bytes_be]
    simp only [modpow]
    rw [Nat.mod_mod_of_dvd _ (dvd_refl (pp.n * pp.n))]
    have hw_eq : pow_2t_mod (pp.g ^ r % pp.n % pp.n) pp.t pp.n
        = pp.h ^ r % pp.n := by
      rw [Nat.mod_mod_of_dvd _ (dvd_refl pp.n)]
      rw [pow_2t_mod_eq pp.n pp.t (pp.g ^ r), ← pow_mul]
      conv_rhs => rw [hh, ← Nat.pow_mod, ← pow_mul]
      rw [Nat.mul_comm r (2 ^ pp.t)]
    rw [hw_eq]
    have hmodn2 : pp.h ^ r % pp.n % (pp.n * pp.n) = pp.h ^ r % pp.n :=
      Nat.mod_eq_of_lt (lt_of_lt_of_le (Nat.mod_lt _ hN0)
        (Nat.le_mul_of_pos_left _ hN0))
    rw [hmodn2]
    have cop_h : Nat.Coprime pp.h pp.n := by
      rw [hh]
      exact coprime_mod_left (Nat.Coprime.pow_left _ hg)
    have cop_hrm : Nat.Coprime (pp.h ^ r % pp.n) pp.n :=
      coprime_mod_left (Nat.Coprime.pow_left _ cop_h)
    have hcop : Nat.Coprime ((pp.h ^ r % pp.n) ^ pp.n % (pp.n * pp.n))
        (pp.n * pp.n) := by
      refine coprime_mod_left (Nat.Coprime.mul_right ?_ ?_) <;>
        exact Nat.Coprime.pow_left _ cop_hrm
    obtain ⟨iw, hiw_eq, hiw⟩ := modinv_spec
      ((pp.h ^ r % pp.n) ^ pp.n % (pp.n * pp.n)) (pp.n * pp.n) hn20 hcop
    rw [hiw_eq]
    dsimp only
    have hA : (pp.h ^ r % pp.n) ^ pp.n % (pp.n * pp.n)
        = pp.h ^ (r * pp.n) % (pp.n * pp.n) := by
      rw [pow_mod_sq_congr pp.n (pp.h ^ r % pp.n) (pp.h ^ r)
        (Nat.mod_mod_of_dvd _ (dvd_refl pp.n)), ← pow_mul]
    have hiwA : pp.h ^ (r * pp.n) * iw ≡ 1 [MOD pp.n * pp.n] := by
      calc pp.h ^ (r * pp.n) * iw
          ≡ ((pp.h ^ r % pp.n) ^ pp.n % (pp.n * pp.n)) * iw [MOD pp.n * pp.n] :=
            Nat.ModEq.mul_right iw (by rw [hA]; exact (Nat.mod_modEq _ _).symm)
        _ ≡ 1 [MOD pp.n * pp.n] := hiw
    have hv : (pp.h % (pp.n * pp.n)) ^ (r * pp.n) % (pp.n * pp.n) *
        ((pp.n + 1) ^ from_bytes_be plaintext % (pp.n * pp.n)) % (pp.n * pp.n)
        ≡ pp.h ^ (r * pp.n) * (pp.n + 1) ^ from_bytes_be plaintext
          [MOD pp.n * pp.n] := by
      rw [← Nat.pow_mod, ← Nat.mul_mod]
      exact Nat.mod_modEq _ _
    have hx2 : (pp.h % (pp.n * pp.n)) ^ (r * pp.n) % (pp.n * pp.n) *
        ((pp.n + 1) ^ from_bytes_be plaintext % (pp.n * pp.n)) % (pp.n * pp.n) * iw
        ≡ 1 + from_bytes_be plaintext * pp.n [MOD pp.n * pp.n] := by
      calc (pp.h % (pp.n * pp.n)) ^ (r * pp.n) % (pp.n * pp.n) *
          ((pp.n + 1) ^ from_bytes_be plaintext % (pp.n * pp.n)) % (pp.n * pp.n) * iw
          ≡ pp.h ^ (r * pp.n) * (pp.n + 1) ^ from_bytes_be plaintext * iw
            [MOD pp.n * pp.n] := Nat.ModEq.mul_right iw hv
        _ = pp.h ^ (r * pp.n) * iw * (pp.n + 1) ^ from_bytes_be plaintext := by
            ring
        _ ≡ 1 * (pp.n + 1) ^ from_bytes_be plaintext [MOD pp.n * pp.n] :=
            Nat.ModEq.mul_right _ hiwA
        _ = (pp.n + 1) ^ from_bytes_be plaintext := one_mul _
        _ ≡ 1 + from_bytes_be plaintext * pp.n [MOD pp.n * pp.n] :=
            one_add_mul_pow_mod pp.n (from_bytes_be plaintext)
    have hlt : 1 + from_bytes_be plaintext * pp.n < pp.n * pp.n := by
      have h1 : (from_bytes_be plaintext + 1) * pp.n ≤ pp.n * pp.n :=
        Nat.mul_le_mul_right pp.n hs
      nlinarith [h1, hN1]
    have hxval : (pp.h % (pp.n * pp.n)) ^ (r * pp.n) % (pp.n * pp.n) *
        ((pp.n + 1) ^ from_bytes_be plaintext % (pp.n * pp.n)) % (pp.n * pp.n) * iw
          % (pp.n * pp.n)
        = 1 + from_bytes_be plaintext * pp.n := by
      refine Nat.ModEq.eq_of_lt_of_lt ?_ (Nat.mod_lt _ hn20) hlt
      exact (Nat.mod_modEq _ _).trans hx2
    rw [hxval]
    have hL : paillier_L (1 + from_bytes_be plaintext * pp.n) pp.n % pp.n
        = from_bytes_be plaintext := by
      rw [paillier_L, Nat.add_sub_cancel_left, Nat.mul_div_cancel _ hN0,
        Nat.mod_eq_of_lt hs]
    rw [hL]
    have hlen := to_bytes_be_len (from_bytes_be plaintext) hfit
    rw [if_neg (by omega)]
    by_cases hl : (to_bytes_be (from_bytes_be plaintext)).length < 32
    · rw [if_pos hl]
    · rw [if_neg hl]
      have h0 : 32 - (to_bytes_be (from_bytes_be plaintext)).length = 0 := by
        omega
      rw [h0]
      simp
  · have hlen := to_bytes_be_len (from_bytes_be plaintext) hfit
    rw [List.length_append, List.length_replicate]
    omega
  · rw [from_bytes_be_replicate_zero, from_to_bytes_be]

/-- C3 witness: the round-trip theorem applied at the closed instance
`p = q = 2` (`N = 4`), `g = 3`, `T = 1` (`h = 3^2 mod 4 = 1`),
plaintext `[2]`, aad `[7]`, `r = 3`. -/
theorem claim_C3_timed_roundtrip_witness :
    (Nat.Prime 2 ∧ (4 : ℕ) = 2 * 2 ∧ (1 : ℕ) = 3 ^ 2 ^ 1 % 4 ∧
      Nat.Coprime 3 4 ∧ from_bytes_be [2] < 4 ∧ from_bytes_be [2] < 256 ^ 32) ∧
    (∃ ct, timed_encrypt ⟨4, 3, 1, 1⟩ [2] [7] 3 = some ct ∧
      timed_decrypt ⟨4, 3, 1, 1⟩ ct [7]
        = some (List.replicate (32 - (to_bytes_be (from_bytes_be [2])).length) 0
            ++ to_bytes_be (from_bytes_be [2])) ∧
      (List.replicate (32 - (to_bytes_be (from_bytes_be [2])).length) 0
        ++ to_bytes_be (from_bytes_be [2])).length = 32 ∧
      from_bytes_be (List.replicate (32 - (to_bytes_be (from_bytes_be [2])).length) 0
        ++ to_bytes_be (from_bytes_be [2])) = from_bytes_be [2]) :=
  ⟨⟨by norm_num, by norm_num, by norm_num, by decide, by decide, by decide⟩,
   claim_C3_timed_roundtrip ⟨4, 3, 1, 1⟩ 2 2 (by norm_num) (by norm_num)
     (by norm_num) (by decide) (by decide) [2] [7] 3 (by norm_num) (by norm_num)
     (by decide) (by decide)⟩

end TimedLemmas

section Sha256Lemmas

/-- FIPS 180-4 test vector: the SHA-256 digest of the empty message. -/
theorem sha256_empty_vector :
    sha256 [] =
      [0xe3, 0xb0, 0xc4, 0x42, 0x98, 0xfc, 0x1c, 0x14, 0x9a, 0xfb, 0xf4, 0xc8,
       0x99, 0x6f, 0xb9, 0x24, 0x27, 0xae, 0x41, 0xe4, 0x64, 0x9b, 0x93, 0x4c,
       0xa4, 0x95, 0x99, 0x1b, 0x78, 0x52, 0xb8, 0x55] := by
  decide

/-- FIPS 180-4 test vector: the SHA-256 digest of `"abc"`. -/
theorem sha256_abc_vector :
    sha256 [97, 98, 99] =
      [0xba, 0x78, 0x16, 0xbf, 0x8f, 0x01, 0xcf, 0xea, 0x41, 0x41, 0x40, 0xde,
       0x5d, 0xae, 0x22, 0x23, 0xb0, 0x03, 0x61, 0xa3, 0x96, 0x17, 0x7a, 0x9c,
       0xb4, 0x10, 0xff, 0x61, 0xf2, 0x00, 0x15, 0xad] := by
  decide

end Sha256Lemmas

section TracingLemmas

theorem outBytes_length (st : ℕ × ℕ × ℕ × ℕ × ℕ × ℕ × ℕ × ℕ) :
    (outBytes st).length = 32 := by
  obtain ⟨a, b, c, d, e, f, g, h⟩ := st
  simp [outBytes, toBytesBE4]

theorem sha256_length (msg : List ℕ) : (sha256 msg).length = 32 :=
  outBytes_length _

theorem zipWith_xor_cancel :
    ∀ key share : List ℕ, key.length = share.length →
      List.zipWith (fun a b => a ^^^ b) key
        (List.zipWith (fun a b => a ^^^ b) key share) = share := by
  intro key
  induction key with
  | nil =>
    intro share h
    cases share with
    | nil => rfl
    | cons s ss => simp at h
  | cons k ks ih =>
    intro share h
    cases share with
    | nil => simp at h
    | cons s ss =>
      simp only [List.zipWith_cons_cons]
      rw [ih ss (by simpa using h)]
      rw [← Nat.xor_assoc, Nat.xor_self, Nat.zero_xor]

variable {G : Type} [AddCommGroup G] [Module (ZMod ell) G]

/-- C4 amended: the tracing round-trip holds when the encrypt-side `label` is
empty (so that the encrypt key `SHA-256(C1 ‖ tau ‖ label)` coincides with the
decrypt key `SHA-256(C1 ‖ tau)`): for every token, 32-byte share and
randomness, decrypting the encryption returns the share. -/
theorem claim_C4_amended (compress : G → List ℕ) (token : TraceToken)
    (share rbuf : List ℕ) (hlen : share.length = 32) :
    (trace_encrypt compress token share [] rbuf).bind
      (trace_decrypt compress token) = some share := by
  rw [trace_encrypt]
  rw [if_pos (by omega)]
  rw [Option.some_bind, trace_decrypt]
  rw [if_neg (not_not_intro rfl)]
  rw [List.append_nil]
  dsimp only
  have hK := sha256_length (compress ((from_bytes_mod_order_wide rbuf) • (0 : G))
    ++ scalarBytes token.tau)
  rw [List.take_of_length_le (le_of_eq hK), List.take_of_length_le (le_of_eq hlen)]
  rw [zipWith_xor_cancel _ _ (by rw [hK, hlen])]

/-- C4 amended witness: the round-trip with empty label at a closed instance
(`G = ZMod ell`, `compress` the scalar byte encoding, zero token and share). -/
theorem claim_C4_amended_witness :
    (List.replicate 32 0).length = 32 ∧
    (trace_encrypt (G := ZMod ell) scalarBytes ⟨List.replicate 32 0, 0⟩
        (List.replicate 32 0) [] []).bind
      (trace_decrypt scalarBytes ⟨List.replicate 32 0, 0⟩)
      = some (List.replicate 32 0) :=
  ⟨by decide,
   claim_C4_amended scalarBytes ⟨List.replicate 32 0, 0⟩ (List.replicate 32 0)
     [] (by decide)⟩

set_option maxRecDepth 4000 in
/-- C4 counterexample: with a nonempty label the encrypt key
`SHA-256(C1 ‖ tau ‖ label)` differs from the decrypt key
`SHA-256(C1 ‖ tau)`, so the claimed round-trip fails: at the token
`(0^32, 0)`, share `0^32`, label `[0]`, randomness `[]` (all evaluated with
the real SHA-256), decryption does not return the share. -/
theorem claim_C4_counterexample :
    (trace_encrypt (G := ZMod ell) scalarBytes ⟨List.replicate 32 0, 0⟩
        (List.replicate 32 0) [0] []).bind
      (trace_decrypt scalarBytes ⟨List.replicate 32 0, 0⟩)
      ≠ some (List.replicate 32 0) := by
  decide

/-- C8: the tracing scheme does NOT use the canonical prime-order basepoint:
`RistrettoPoint::default()` is the additive identity, so `setup_admitter`
returns `pk = 0` for EVERY secret key (in particular for `sk = 1`, where the
claim would give `pk = B ≠ 0`), and every `trace_encrypt` ciphertext has
`C1 = 0`. -/
theorem claim_C8_identity_basepoint :
    (∀ (H : Type) [AddCommGroup H] [Module (ZMod ell) H] (buf : List ℕ),
      (setup_admitter (G := H) buf).pk = 0) ∧
    (setup_admitter (G := ZMod ell) (1 :: List.replicate 63 0)).sk = 1 ∧
    (setup_admitter (G := ZMod ell) (1 :: List.replicate 63 0)).pk = 0 ∧
    (∀ (H : Type) [AddCommGroup H] [Module (ZMod ell) H]
      (compress : H → List ℕ) (token : TraceToken) (share label rbuf : List ℕ),
      (trace_encrypt compress token share label rbuf).map (fun ct => ct.c1)
        = (trace_encrypt compress token share label rbuf).map (fun _ => (0 : H))) := by
  refine ⟨?_, ?_, ?_, ?_⟩
  · intro H _ _ buf
    exact smul_zero _
  · decide
  · exact smul_zero _
  · intro H _ _ compress token share label rbuf
    rw [trace_encrypt]
    split
    · rw [Option.map_some', Option.map_some', smul_zero]
    · rfl

/-- C10: `trace_encrypt` reads exactly the first 32 bytes of `share` and
panics (out-of-bounds index, modeled `none`) whenever `share` is shorter
than 32 bytes; and for every ciphertext (with its 32-byte `c2`) whose
`msg_hash` matches the token, `trace_decrypt` returns `some` vector of
exactly 32 bytes. -/
theorem claim_C10_tracing_edges (compress : G → List ℕ) :
    (∀ (token : TraceToken) (share label rbuf : List ℕ), share.length < 32 →
      trace_encrypt compress token share label rbuf = none) ∧
    (∀ (token : TraceToken) (share label rbuf : List ℕ), 32 ≤ share.length →
      trace_encrypt compress token share label rbuf
        = trace_encrypt compress token (share.take 32) label rbuf) ∧
    (∀ (token : TraceToken) (tc : TraceCiphertext G),
      tc.msg_hash = token.msg_hash → tc.c2.length = 32 →
      ∃ out, trace_decrypt compress token tc = some out ∧ out.length = 32) := by
  refine ⟨?_, ?_, ?_⟩
  · intro token share label rbuf hshort
    rw [trace_encrypt]
    rw [if_neg (by omega)]
  · intro token share label rbuf h32
    rw [trace_encrypt, trace_encrypt]
    rw [if_pos h32, if_pos (by simp [List.length_take]; omega)]
    simp [List.take_take]
  · intro token tc hmh hc2
    rw [trace_decrypt]
    rw [if_neg (not_not_intro hmh)]
    refine ⟨_, rfl, ?_⟩
    simp [List.length_zipWith, List.length_take, sha256_length, hc2]

/-- C10 witness: the edge theorem applied at closed instances (empty share
for the panic case, a 33-byte share for the 32-byte-prefix case, a matching
32-byte ciphertext for the decrypt case). -/
theorem claim_C10_tracing_edges_witness :
    (([] : List ℕ).length < 32 ∧ (32 : ℕ) ≤ (List.replicate 33 0).length) ∧
    trace_encrypt (G := ZMod ell) scalarBytes ⟨List.replicate 32 0, 0⟩ [] [] []
      = none ∧
    trace_encrypt (G := ZMod ell) scalarBytes ⟨List.replicate 32 0, 0⟩
        (List.replicate 33 0) [] []
      = trace_encrypt scalarBytes ⟨List.replicate 32 0, 0⟩
          ((List.replicate 33 0).take 32) [] [] ∧
    (∃ out, trace_decrypt (G := ZMod ell) scalarBytes ⟨List.replicate 32 0, 0⟩
        ⟨0, List.replicate 32 0, List.replicate 32 0⟩ = some out ∧
      out.length = 32) :=
  ⟨⟨by decide, by decide⟩,
   (claim_C10_tracing_edges scalarBytes).1 ⟨List.replicate 32 0, 0⟩ [] [] []
     (by decide),
   (claim_C10_tracing_edges scalarBytes).2.1 ⟨List.replicate 32 0, 0⟩
     (List.replicate 33 0) [] [] (by decide),
   (claim_C10_tracing_edges scalarBytes).2.2 ⟨List.replicate 32 0, 0⟩
     ⟨0, List.replicate 32 0, List.replicate 32 0⟩ rfl (by decide)⟩

end TracingLemmas

end TSig
